import Mathlib

/-!
Verification of the battleship repository's board/state model (`board.py`)
and targeting engine (`ai.py`) against its natural-language specification.

The Python code is shallowly embedded: grids become total functions
`Int → Int → Int` (Python lists are only ever indexed in bounds, so the
out-of-range default is never read by the embedded pipeline), Python ints
become `Int` (or `Nat` where the value is a count), Python floats become
`ℚ` (all float arithmetic in the source is division and comparison of
small integers, which is exact), and while-loops become fuel-indexed
structural recursion with a proved fuel-adequacy bound.
-/

namespace Battleship

/-- `constants.py`: GRID_SIZE = 10. -/
def GRID_SIZE : Nat := 10

/-- `constants.py`: STANDARD_SHIPS = [5, 4, 3, 3, 2]. -/
def STANDARD_SHIPS : List Nat := [5, 4, 3, 3, 2]

/-- `board.py`: cell state EMPTY = 0. -/
def EMPTY : Int := 0

/-- `board.py`: cell state SHIP = 1. -/
def SHIP : Int := 1

/-- `board.py`: cell state HIT = 2. -/
def HIT : Int := 2

/-- `board.py`: cell state MISS = 3. -/
def MISS : Int := 3

/-- Knowledge-grid value for an unresolved cell (`-1` in the source). -/
def UNKNOWN : Int := -1

abbrev Coord := Int × Int

/-- `board.py` `Ship`: length, occupied cells, hit count. -/
structure Ship where
  length : Nat
  cells : List Coord
  hits : Nat
deriving DecidableEq, Repr

/-- `board.py` `Ship.sunk`: `self.hits >= self.length`. -/
def Ship.sunk (s : Ship) : Bool := decide (s.length ≤ s.hits)

/-- `board.py` `Board`: size, grid of cell states, ships, total ship cells.
The grid is embedded as a total function; the Python list-of-lists is only
indexed after a bounds check. -/
structure Board where
  size : Nat
  grid : Int → Int → Int
  ships : List Ship
  total_ship_cells : Nat

/-- `board.py` `Board.in_bounds`: `0 <= r < self.size and 0 <= c < self.size`. -/
def Board.in_bounds (b : Board) (r c : Int) : Prop :=
  0 ≤ r ∧ r < (b.size : Int) ∧ 0 ≤ c ∧ c < (b.size : Int)

instance (b : Board) (r c : Int) : Decidable (b.in_bounds r c) := by
  unfold Board.in_bounds; infer_instance

/-- The ship-update loop inside `board.py` `receive_shot`: walk the ship
list, increment the hits of the first ship whose `cells` contain `(r, c)`,
and report that ship's length iff it just became sunk (the loop `break`s
after the first match). Returns the updated list and the reported length. -/
def updateShips : List Ship → Int → Int → List Ship × Option Nat
  | [], _, _ => ([], none)
  | s :: rest, r, c =>
    if (r, c) ∈ s.cells then
      let s2 : Ship := { s with hits := s.hits + 1 }
      (s2 :: rest, if s2.sunk then some s2.length else none)
    else
      let p := updateShips rest r c
      (s :: p.1, p.2)

/-- `board.py` `Board.all_ships_sunk`: every ship sunk and at least one ship. -/
def Board.all_ships_sunk (b : Board) : Bool :=
  b.ships.all (fun s => s.sunk) && decide (0 < b.ships.length)

/-- The board after a shot resolves on a SHIP cell (`self.grid[r][c] =
HIT` plus the ship-hits update) in `board.py` `receive_shot`. -/
def shipHitBoard (b : Board) (r c : Int) : Board :=
  { b with grid := fun r2 c2 => if r2 = r ∧ c2 = c then HIT else b.grid r2 c2,
           ships := (updateShips b.ships r c).1 }

/-- The board after a shot resolves on an empty cell (`self.grid[r][c] =
MISS`) in `board.py` `receive_shot`. -/
def missBoard (b : Board) (r c : Int) : Board :=
  { b with grid := fun r2 c2 => if r2 = r ∧ c2 = c then MISS else b.grid r2 c2 }

/-- `board.py` `Board.receive_shot`: returns the updated board together with
the Python result triple `(hit, sunk_length, game_over)`. Out-of-bounds and
already-resolved cells are no-ops; a SHIP cell becomes HIT and the owning
ship's count is updated; any other cell becomes MISS. -/
def Board.receive_shot (b : Board) (r c : Int) :
    Board × Bool × Option Nat × Bool :=
  if ¬ b.in_bounds r c then (b, false, none, b.all_ships_sunk)
  else if b.grid r c = HIT ∨ b.grid r c = MISS then (b, false, none, b.all_ships_sunk)
  else if b.grid r c = SHIP then
    (shipHitBoard b r c, true, (updateShips b.ships r c).2,
      (shipHitBoard b r c).all_ships_sunk)
  else
    (missBoard b r c, false, none, (missBoard b r c).all_ships_sunk)

/-- `board.py` `Board.get_ai_knowledge`: attacker-perspective projection;
HIT stays HIT, MISS stays MISS, everything else becomes UNKNOWN. The
Python grid only exists at in-range indices; the embedding returns UNKNOWN
off-grid (never read by the pipeline). -/
def Board.get_ai_knowledge (b : Board) : Int → Int → Int :=
  fun r c =>
    if 0 ≤ r ∧ r < (b.size : Int) ∧ 0 ≤ c ∧ c < (b.size : Int) then
      if b.grid r c = HIT then HIT
      else if b.grid r c = MISS then MISS
      else UNKNOWN
    else UNKNOWN

/-- C6: a shot that is out of bounds, or aimed at an already-resolved cell,
returns `hit = false`, `sunkLength = none` and leaves the board (grid,
ships, hit counts, total ship-cell count) unchanged. -/
theorem receive_shot_noop (b : Board) (r c : Int)
    (h : ¬ b.in_bounds r c ∨ b.grid r c = HIT ∨ b.grid r c = MISS) :
    b.receive_shot r c = (b, false, none, b.all_ships_sunk) := by
  unfold Board.receive_shot
  by_cases hb : b.in_bounds r c
  · simp only [hb, not_true_eq_false, if_false]
    have hcell : b.grid r c = HIT ∨ b.grid r c = MISS := by tauto
    simp [hcell]
  · simp [hb]

/-- Witness for C6 at a concrete input: shooting out of bounds on a small
concrete board is a no-op. -/
theorem receive_shot_noop_witness :
    (Board.mk 2 (fun _ _ => EMPTY) [] 0).receive_shot 5 0 =
      ((Board.mk 2 (fun _ _ => EMPTY) [] 0), false, none,
        (Board.mk 2 (fun _ _ => EMPTY) [] 0).all_ships_sunk) := by
  apply receive_shot_noop
  left
  decide

/-- C9: the attacker-perspective knowledge view maps HIT to HIT, MISS to
MISS and everything else to UNKNOWN; hence two boards of the same size
that agree on which cells are HIT and which are MISS have identical
knowledge views, wherever their un-hit ships are. -/
theorem get_ai_knowledge_spec :
    (∀ (b : Board) (r c : Int), b.in_bounds r c →
      (b.grid r c = HIT → b.get_ai_knowledge r c = HIT) ∧
      (b.grid r c = MISS → b.get_ai_knowledge r c = MISS) ∧
      (b.grid r c ≠ HIT → b.grid r c ≠ MISS → b.get_ai_knowledge r c = UNKNOWN)) ∧
    (∀ (b1 b2 : Board), b1.size = b2.size →
      (∀ r c : Int, b1.in_bounds r c →
        ((b1.grid r c = HIT ↔ b2.grid r c = HIT) ∧
         (b1.grid r c = MISS ↔ b2.grid r c = MISS))) →
      b1.get_ai_knowledge = b2.get_ai_knowledge) := by
  constructor
  · intro b r c hin
    have hin' : 0 ≤ r ∧ r < (b.size : Int) ∧ 0 ≤ c ∧ c < (b.size : Int) := hin
    refine ⟨?_, ?_, ?_⟩
    · intro hh; simp [Board.get_ai_knowledge, hin', hh]
    · intro hm
      have hne : b.grid r c ≠ HIT := by rw [hm]; decide
      simp [Board.get_ai_knowledge, hin', hm, hne, HIT, MISS]
    · intro h1 h2; simp [Board.get_ai_knowledge, hin', h1, h2]
  · intro b1 b2 hsz hagree
    funext r c
    unfold Board.get_ai_knowledge
    by_cases hin : 0 ≤ r ∧ r < (b1.size : Int) ∧ 0 ≤ c ∧ c < (b1.size : Int)
    · have hin2 : 0 ≤ r ∧ r < (b2.size : Int) ∧ 0 ≤ c ∧ c < (b2.size : Int) := by
        rw [← hsz]; exact hin
      have h := hagree r c hin
      simp only [hin, if_true, hin2]
      by_cases hh : b1.grid r c = HIT
      · simp [hh, h.1.mp hh]
      · have hh2 : ¬ b2.grid r c = HIT := fun hx => hh (h.1.mpr hx)
        by_cases hm : b1.grid r c = MISS
        · simp [hh, hh2, hm, h.2.mp hm]
        · have hm2 : ¬ b2.grid r c = MISS := fun hx => hm (h.2.mpr hx)
          simp [hh, hh2, hm, hm2]
    · have hin2 : ¬ (0 ≤ r ∧ r < (b2.size : Int) ∧ 0 ≤ c ∧ c < (b2.size : Int)) := by
        rw [← hsz]; exact hin
      simp [hin, hin2]

/-- Witness for C9: the concrete mapping on a board with one HIT, one MISS
and one un-hit ship cell; the view hides the ship cell. -/
theorem get_ai_knowledge_spec_witness :
    (Board.mk 2
      (fun r c => if (r, c) = ((0 : Int), (0 : Int)) then HIT
        else if (r, c) = ((0 : Int), (1 : Int)) then MISS
        else if (r, c) = ((1 : Int), (0 : Int)) then SHIP else EMPTY)
      [] 0).get_ai_knowledge 1 0 = UNKNOWN := by
  have h := (get_ai_knowledge_spec.1
    (Board.mk 2
      (fun r c => if (r, c) = ((0 : Int), (0 : Int)) then HIT
        else if (r, c) = ((0 : Int), (1 : Int)) then MISS
        else if (r, c) = ((1 : Int), (0 : Int)) then SHIP else EMPTY)
      [] 0) 1 0 (by decide)).2.2
  exact h (by decide) (by decide)

/-! ## Targeting engine (`ai.py`) -/

/-- `range(n)` as a list of `Int` indices. -/
def intRange (n : Nat) : List Int := (List.range n).map (Nat.cast : Nat → Int)

/-- All grid coordinates in row-major order (the nested
`for r in range(size): for c in range(size)` loops). -/
def allCoords (n : Nat) : List Coord :=
  (intRange n).flatMap (fun r => (intRange n).map (fun c => (r, c)))

/-- `0 <= r < size and 0 <= c < size` for a `size`-sided grid. -/
def cellInRange (size : Nat) (r c : Int) : Prop :=
  0 ≤ r ∧ r < (size : Int) ∧ 0 ≤ c ∧ c < (size : Int)

instance (size : Nat) (r c : Int) : Decidable (cellInRange size r c) := by
  unfold cellInRange; infer_instance

/-- The four orthogonal directions used throughout `ai.py`:
`((1, 0), (-1, 0), (0, 1), (0, -1))`. -/
def dirs : List (Int × Int) := [(1, 0), (-1, 0), (0, 1), (0, -1)]

/-- `ai.py` `BattleshipAI` state: grid size and tracked remaining ships. -/
structure BattleshipAI where
  size : Nat
  remaining_ships : List Nat

/-- `ai.py` `_valid_placement_on_knowledge`: every covered cell is in
bounds and is not MISS (HIT and UNKNOWN are both acceptable). -/
def BattleshipAI.valid_placement_on_knowledge (ai : BattleshipAI)
    (knowledge : Int → Int → Int) (r c : Int) (length : Nat) (horizontal : Bool) : Bool :=
  (List.range length).all fun (i : Nat) =>
    let rr := r + (if horizontal then 0 else (i : Int))
    let cc := c + (if horizontal then (i : Int) else 0)
    decide (cellInRange ai.size rr cc) && decide (knowledge rr cc ≠ MISS)

/-- Cluster orientation: `'h'`, `'v'` or `None` in the source. -/
inductive Orient where
  | h
  | v
deriving DecidableEq, Repr

abbrev Cluster := List Coord × Option Orient

/-- The DFS loop of `ai.py` `_hit_clusters`. `free` holds the not yet
visited HIT cells (the complement of the source's `visited` array,
restricted to HIT cells, which are the only ones it ever marks besides
the component seeds). Each pushed neighbor is removed from `free` at push
time, exactly as the source marks `visited` at push time. `dfsPush` is
the inner `for dr, dc in dirs` loop of one stack pop; `dfsHits` is the
`while stack` loop as fuel-indexed structural recursion — every
iteration strictly decreases `free.length + stack.length`, so the fuel
passed by `hit_clusters` always reaches the loop's fixpoint. -/
def dfsPush (k : Int → Int → Int) (size : Nat) (p : Coord) :
    List (Int × Int) → List Coord × List Coord → List Coord × List Coord
  | [], acc => acc
  | d :: ds, acc =>
    let nr := p.1 + d.1
    let nc := p.2 + d.2
    dfsPush k size p ds
      (if cellInRange size nr nc ∧ (nr, nc) ∈ acc.2 ∧ k nr nc = HIT then
        ((nr, nc) :: acc.1, acc.2.erase (nr, nc))
      else acc)

def dfsHits (k : Int → Int → Int) (size : Nat) :
    Nat → List Coord → List Coord → List Coord × List Coord
  | 0, _, free => ([], free)
  | _ + 1, [], free => ([], free)
  | fuel + 1, p :: stack, free =>
    let pushed := dfsPush k size p dirs (stack, free)
    let rest := dfsHits k size fuel pushed.1 pushed.2
    (p :: rest.1, rest.2)

/-- Orientation inference of `ai.py` `_hit_clusters`: for components of at
least two cells, `'h'` iff all rows agree, else `'v'` iff all columns
agree, else ambiguous; singletons are ambiguous. -/
def clusterOrient (comp : List Coord) : Option Orient :=
  if 2 ≤ comp.length then
    match comp with
    | [] => none
    | q :: rest =>
      if rest.all (fun p => decide (p.1 = q.1)) then some Orient.h
      else if rest.all (fun p => decide (p.2 = q.2)) then some Orient.v
      else none
  else none

/-- `ai.py` `_hit_clusters`: scan the grid in row-major order; each HIT
cell not yet visited seeds a DFS collecting its 4-connected HIT component.
`acc.2` is the list of unvisited HIT cells, so the source's
`knowledge[r][c] == HIT and not visited[r][c]` test is `p ∈ acc.2`. -/
def clusterScanStep (ai : BattleshipAI) (knowledge : Int → Int → Int)
    (acc : List Cluster × List Coord) (p : Coord) : List Cluster × List Coord :=
  if p ∈ acc.2 then
    let d := dfsHits knowledge ai.size (acc.2.length + 1) [p] (acc.2.erase p)
    (acc.1 ++ [(d.1, clusterOrient d.1)], d.2)
  else acc

def BattleshipAI.hit_clusters (ai : BattleshipAI) (knowledge : Int → Int → Int) :
    List Cluster :=
  ((allCoords ai.size).foldl (clusterScanStep ai knowledge)
    ([], (allCoords ai.size).filter (fun p => decide (knowledge p.1 p.2 = HIT)))).1

/-- `ai.py` `_placement_cells`. -/
def placement_cells (r c : Int) (length : Nat) (horizontal : Bool) : List Coord :=
  (List.range length).map fun (i : Nat) =>
    (r + (if horizontal then 0 else (i : Int)), c + (if horizontal then (i : Int) else 0))

/-- The cluster loop of `ai.py` `_placement_consistent_with_clusters`,
with the running `intersected` counter as an explicit argument. Each
early `return False` becomes a `false` branch; the checks are the
source's, in the source's order. -/
def consistentGo (cells : List Coord) (length : Nat) (horizontal : Bool) :
    List Cluster → Nat → Bool
  | [], _ => true
  | cl :: rest, intersected =>
    if (cl.1.filter (fun q => decide (q ∈ cells))).isEmpty then
      consistentGo cells length horizontal rest intersected
    else if length < cl.1.length then false
    else if ¬ cl.1.all (fun q => decide (q ∈ cells)) then false
    else if cl.2 = some Orient.h ∧ horizontal = false then false
    else if cl.2 = some Orient.v ∧ horizontal = true then false
    else if 1 < intersected + 1 then false
    else consistentGo cells length horizontal rest (intersected + 1)

/-- `ai.py` `_placement_consistent_with_clusters`. -/
def placement_consistent_with_clusters (cells : List Coord) (clusters : List Cluster)
    (length : Nat) (horizontal : Bool) : Bool :=
  consistentGo cells length horizontal clusters 0

/-- Resolution of `ai.py` `heatmap`'s `ships = remaining_ships or
self.remaining_ships`: a `None` argument and an explicit empty list are
both falsy in Python, and both fall back to the instance's list. -/
def resolveShips (ai : BattleshipAI) (ships? : Option (List Nat)) : List Nat :=
  match ships? with
  | none => ai.remaining_ships
  | some l => if l.isEmpty then ai.remaining_ships else l

/-- The base accumulation loops of `ai.py` `heatmap`: for each remaining
length, each orientation and each origin in the loop ranges, a placement
passing both `_valid_placement_on_knowledge` and
`_placement_consistent_with_clusters` adds 1 to each covered cell. The
Python origin range `range(self.size - length + 1)` is empty when
`length > size`, matching the truncated `size + 1 - length`. -/
def BattleshipAI.baseHeat (ai : BattleshipAI) (knowledge : Int → Int → Int)
    (ships : List Nat) (clusters : List Cluster) (r c : Int) : Nat :=
  (ships.map (fun length =>
    ((intRange ai.size).map (fun r0 =>
      (intRange (ai.size + 1 - length)).countP (fun c0 =>
        ai.valid_placement_on_knowledge knowledge r0 c0 length true &&
        placement_consistent_with_clusters (placement_cells r0 c0 length true)
          clusters length true &&
        decide ((r, c) ∈ placement_cells r0 c0 length true)))).sum
    +
    ((intRange (ai.size + 1 - length)).map (fun r0 =>
      (intRange ai.size).countP (fun c0 =>
        ai.valid_placement_on_knowledge knowledge r0 c0 length false &&
        placement_consistent_with_clusters (placement_cells r0 c0 length false)
          clusters length false &&
        decide ((r, c) ∈ placement_cells r0 c0 length false)))).sum)).sum

/-- The adjacency-boost loop of `ai.py` `heatmap`: the source walks every
in-range HIT cell and adds 3 to each in-range UNKNOWN orthogonal
neighbor; since `dirs` is closed under negation, the bonus a cell
receives is 3 times its number of in-range HIT neighbors, granted only
when the cell itself is in range and UNKNOWN. -/
def BattleshipAI.boostedHeat (ai : BattleshipAI) (knowledge : Int → Int → Int)
    (ships : List Nat) (clusters : List Cluster) (r c : Int) : Nat :=
  ai.baseHeat knowledge ships clusters r c +
    (if cellInRange ai.size r c ∧ knowledge r c = UNKNOWN then
      3 * dirs.countP (fun d =>
        decide (cellInRange ai.size (r + d.1) (c + d.2)) &&
        decide (knowledge (r + d.1) (c + d.2) = HIT))
    else 0)

/-- Python `min(ships)` for a nonempty list (`0` is never used: the
caller guards with `if ships`). -/
def minLen : List Nat → Nat
  | [] => 0
  | x :: xs => xs.foldl Nat.min x

/-- The `any_hit` scan of `ai.py` `heatmap`. -/
def BattleshipAI.anyHit (ai : BattleshipAI) (knowledge : Int → Int → Int) : Bool :=
  (allCoords ai.size).any (fun p => decide (knowledge p.1 p.2 = HIT))

/-- `ai.py` `heatmap`. The parity step `int(heat[r][c] * 0.25)` is `h / 4`
in `Nat`: for a nonnegative integer `h < 2 ^ 52`, `h * 0.25` is exact in
binary floating point and `int` truncates toward zero. -/
def BattleshipAI.heatmap (ai : BattleshipAI) (knowledge : Int → Int → Int)
    (remaining_ships : Option (List Nat)) : Int → Int → Nat :=
  let ships := resolveShips ai remaining_ships
  let clusters := ai.hit_clusters knowledge
  let doParity := !ai.anyHit knowledge && !ships.isEmpty && decide (2 ≤ minLen ships)
  fun r c =>
    if doParity = true ∧ (r + c) % 2 = 1 then
      ai.boostedHeat knowledge ships clusters r c / 4
    else ai.boostedHeat knowledge ships clusters r c

/-- Python tuple comparison `a >= b` on `(score, r, c)` triples
(descending lexicographic order is what `sort(reverse=True)` produces). -/
def keyGe (a b : Nat × Int × Int) : Bool :=
  decide (b.1 < a.1) ||
    (decide (a.1 = b.1) &&
      (decide (b.2.1 < a.2.1) ||
        (decide (a.2.1 = b.2.1) && decide (b.2.2 ≤ a.2.2))))

/-- Insertion step for the descending sort. -/
def insertDesc (x : Nat × Int × Int) :
    List (Nat × Int × Int) → List (Nat × Int × Int)
  | [] => [x]
  | y :: ys => if keyGe x y then x :: y :: ys else y :: insertDesc x ys

/-- `cells.sort(reverse=True)` of `ai.py` `_top_candidates`: descending
lexicographic sort of `(score, r, c)` triples (all triples are distinct,
so stability is irrelevant). -/
def sortDesc (l : List (Nat × Int × Int)) : List (Nat × Int × Int) :=
  l.foldr insertDesc []

/-- The `(score, r, c)` collection loop of `ai.py` `_top_candidates`:
every UNKNOWN cell in row-major order. -/
def BattleshipAI.tcCells (ai : BattleshipAI) (heat : Int → Int → Nat)
    (knowledge : Int → Int → Int) : List (Nat × Int × Int) :=
  (allCoords ai.size).filterMap fun p =>
    if knowledge p.1 p.2 = UNKNOWN then some (heat p.1 p.2, p.1, p.2) else none

/-- The sorted-and-truncated `cells[:k]` of `ai.py` `_top_candidates`. -/
def BattleshipAI.tcTop (ai : BattleshipAI) (heat : Int → Int → Nat)
    (knowledge : Int → Int → Int) (kk : Nat) : List (Nat × Int × Int) :=
  (sortDesc (ai.tcCells heat knowledge)).take kk

/-- `ai.py` `_top_candidates`: the positive-score members of the top `kk`,
or the whole top `kk` if none is positive (the Python `or` fallback). -/
def BattleshipAI.top_candidates (ai : BattleshipAI) (heat : Int → Int → Nat)
    (knowledge : Int → Int → Int) (kk : Nat) : List Coord :=
  if ((ai.tcTop heat knowledge kk).filter (fun t => decide (0 < t.1))).isEmpty then
    (ai.tcTop heat knowledge kk).map (fun t => (t.2.1, t.2.2))
  else
    ((ai.tcTop heat knowledge kk).filter (fun t => decide (0 < t.1))).map
      (fun t => (t.2.1, t.2.2))

/-- `cand.append` guarded by the `seen` set in `ai.py`
`_target_candidates`: `seen` always equals the set of cells already in
`cand`, so one list with a membership test is an exact rendering. -/
def pushIfNew (acc : List Coord) (p : Coord) : List Coord :=
  if p ∈ acc then acc else acc ++ [p]

/-- The inner direction loop of the ambiguous-orientation branch of
`ai.py` `_target_candidates`: push each in-range UNKNOWN orthogonal
neighbor of `p` not yet emitted. -/
def emitCellNbrs (ai : BattleshipAI) (knowledge : Int → Int → Int) (p : Coord) :
    List (Int × Int) → List Coord → List Coord
  | [], acc => acc
  | d :: ds, acc =>
    let rr := p.1 + d.1
    let cc := p.2 + d.2
    emitCellNbrs ai knowledge p ds
      (if cellInRange ai.size rr cc ∧ knowledge rr cc = UNKNOWN then
        pushIfNew acc (rr, cc)
      else acc)

/-- The ambiguous-orientation branch of `ai.py` `_target_candidates`:
every in-range UNKNOWN orthogonal neighbor of every component cell. -/
def emitNbrs (ai : BattleshipAI) (knowledge : Int → Int → Int) :
    List Coord → List Coord → List Coord
  | [], acc => acc
  | p :: ps, acc => emitNbrs ai knowledge ps (emitCellNbrs ai knowledge p dirs acc)

/-- `ai.py` `_target_candidates`. The oriented `while ... break` loops run
their bodies at most once, i.e. they are conditionals on the single cell
one step beyond each end of the cluster's span. `rows`/`cols` is the
unique shared row/column of an oriented cluster, which is the first
cell's. -/
def clusterStep (ai : BattleshipAI) (knowledge : Int → Int → Int)
    (cl : Cluster) (acc : List Coord) : List Coord :=
  match cl with
  | ([], _) => acc
  | (q :: rest, none) => emitNbrs ai knowledge (q :: rest) acc
  | (q :: rest, some Orient.h) =>
    let rows := q.1
    let min_c := rest.foldl (fun m p => min m p.2) q.2
    let max_c := rest.foldl (fun m p => max m p.2) q.2
    let acc2 :=
      if 0 ≤ min_c - 1 ∧ knowledge rows (min_c - 1) = UNKNOWN then
        pushIfNew acc (rows, min_c - 1)
      else acc
    if max_c + 1 < (ai.size : Int) ∧ knowledge rows (max_c + 1) = UNKNOWN then
      pushIfNew acc2 (rows, max_c + 1)
    else acc2
  | (q :: rest, some Orient.v) =>
    let cols := q.2
    let min_r := rest.foldl (fun m p => min m p.1) q.1
    let max_r := rest.foldl (fun m p => max m p.1) q.1
    let acc2 :=
      if 0 ≤ min_r - 1 ∧ knowledge (min_r - 1) cols = UNKNOWN then
        pushIfNew acc (min_r - 1, cols)
      else acc
    if max_r + 1 < (ai.size : Int) ∧ knowledge (max_r + 1) cols = UNKNOWN then
      pushIfNew acc2 (max_r + 1, cols)
    else acc2

def BattleshipAI.target_candidates (ai : BattleshipAI)
    (knowledge : Int → Int → Int) : List Coord :=
  (ai.hit_clusters knowledge).foldl
    (fun acc cl => clusterStep ai knowledge cl acc) []

/-- `total = sum(sum(row) for row in heat)`. -/
def sumHeat (ai : BattleshipAI) (heat : Int → Int → Nat) : Nat :=
  ((allCoords ai.size).map (fun p => heat p.1 p.2)).sum

/-- `ai.py` `_best_counter_gain`. The grid scan keeps the largest heat
value over UNKNOWN cells (the tracked `best_r`/`best_c` do not affect the
result and are dropped). A `Nat` total satisfies `total <= 0` iff it is
`0`, and likewise for `best`; the float division of small integers is
embedded as exact rational division. -/
def BattleshipAI.best_counter_gain (ai : BattleshipAI)
    (player_knowledge_on_ai : Int → Int → Int) (ai_remaining_ships : List Nat) : ℚ :=
  let heat_p := ai.heatmap player_knowledge_on_ai (some ai_remaining_ships)
  let total := sumHeat ai heat_p
  if total = 0 then 0
  else
    let best := (allCoords ai.size).foldl
      (fun b p =>
        if player_knowledge_on_ai p.1 p.2 = UNKNOWN ∧ b < heat_p p.1 p.2 then
          heat_p p.1 p.2
        else b) 0
    if best = 0 then 0 else (best : ℚ) / (total : ℚ)

/-- The candidate selection of `ai.py` `choose_shot`: `candidates =
target_cands or self._top_candidates(heat, player_board_knowledge)` —
Python falsiness makes an empty target list fall through to the top heat
candidates (with the heatmap `choose_shot` computes). -/
def BattleshipAI.candidatesOf (ai : BattleshipAI)
    (player_board_knowledge : Int → Int → Int) : List Coord :=
  if (ai.target_candidates player_board_knowledge).isEmpty then
    ai.top_candidates (ai.heatmap player_board_knowledge (some ai.remaining_ships))
      player_board_knowledge 8
  else ai.target_candidates player_board_knowledge

/-- `ai.py` `choose_shot`. `ai_remaining_ships or STANDARD_SHIPS` uses
Python falsiness (`None` and the empty list both fall back to the
standard fleet). The scoring loop keeps the first strictly-improving
candidate, starting from `candidates[0]` and `best_score = -1e9`. -/
def BattleshipAI.choose_shot (ai : BattleshipAI)
    (player_board_knowledge player_shots_on_ai_board : Int → Int → Int)
    (ai_remaining_ships : Option (List Nat)) : Coord :=
  let heat := ai.heatmap player_board_knowledge (some ai.remaining_ships)
  let candidates := ai.candidatesOf player_board_knowledge
  if candidates.isEmpty then
    match (allCoords ai.size).find?
        (fun p => decide (player_board_knowledge p.1 p.2 = UNKNOWN)) with
    | some p => p
    | none => (0, 0)
  else
    let opp_gain := ai.best_counter_gain player_shots_on_ai_board
      (match ai_remaining_ships with
       | none => STANDARD_SHIPS
       | some l => if l.isEmpty then STANDARD_SHIPS else l)
    let total_heat := sumHeat ai heat
    let score1 := fun (p : Coord) =>
      (if total_heat = 0 then (0 : ℚ) else (heat p.1 p.2 : ℚ) / (total_heat : ℚ)) - opp_gain
    (candidates.foldl
      (fun (st : Coord × ℚ) p => if st.2 < score1 p then (p, score1 p) else st)
      (candidates.headD (0, 0), -(1000000000 : ℚ))).1

/-! ## Basic lemmas about ranges and coordinates -/

theorem mem_intRange {n : Nat} {a : Int} : a ∈ intRange n ↔ 0 ≤ a ∧ a < (n : Int) := by
  unfold intRange
  simp only [List.mem_map, List.mem_range]
  constructor
  · rintro ⟨i, hi, rfl⟩
    omega
  · rintro ⟨h0, hn⟩
    exact ⟨a.toNat, by omega, by omega⟩

theorem mem_allCoords {n : Nat} {p : Coord} :
    p ∈ allCoords n ↔ cellInRange n p.1 p.2 := by
  unfold allCoords cellInRange
  simp only [List.mem_flatMap, List.mem_map]
  constructor
  · rintro ⟨r, hr, c, hc, rfl⟩
    have h1 := mem_intRange.mp hr
    have h2 := mem_intRange.mp hc
    exact ⟨h1.1, h1.2, h2.1, h2.2⟩
  · rintro ⟨h1, h2, h3, h4⟩
    exact ⟨p.1, mem_intRange.mpr ⟨h1, h2⟩, p.2, mem_intRange.mpr ⟨h3, h4⟩, rfl⟩

theorem mem_pushIfNew {acc : List Coord} {p x : Coord} :
    x ∈ pushIfNew acc p ↔ x ∈ acc ∨ x = p := by
  unfold pushIfNew
  by_cases h : p ∈ acc
  · simp only [h, if_true]
    constructor
    · exact Or.inl
    · rintro (hx | rfl) <;> assumption
  · simp [h]

theorem nodup_pushIfNew {acc : List Coord} {p : Coord} (h : acc.Nodup) :
    (pushIfNew acc p).Nodup := by
  unfold pushIfNew
  by_cases hp : p ∈ acc
  · simpa [hp]
  · rw [if_neg hp, List.nodup_append]
    refine ⟨h, List.nodup_singleton p, ?_⟩
    intro a ha hb
    rw [List.mem_singleton] at hb
    subst hb
    exact hp ha

/-! ## The descending tuple sort of `_top_candidates` -/

theorem keyGe_total (a b : Nat × Int × Int) : keyGe a b = true ∨ keyGe b a = true := by
  unfold keyGe
  rcases a with ⟨s1, r1, c1⟩
  rcases b with ⟨s2, r2, c2⟩
  simp only [Bool.or_eq_true, Bool.and_eq_true, decide_eq_true_eq]
  by_cases h1 : s1 = s2
  · subst h1
    by_cases h2 : r1 = r2
    · subst h2; omega
    · omega
  · omega

theorem keyGe_trans {a b c : Nat × Int × Int}
    (h1 : keyGe a b = true) (h2 : keyGe b c = true) : keyGe a c = true := by
  unfold keyGe at *
  rcases a with ⟨s1, r1, c1⟩
  rcases b with ⟨s2, r2, c2⟩
  rcases c with ⟨s3, r3, c3⟩
  simp only [Bool.or_eq_true, Bool.and_eq_true, decide_eq_true_eq] at *
  omega

theorem insertDesc_perm (x : Nat × Int × Int) (l : List (Nat × Int × Int)) :
    (insertDesc x l).Perm (x :: l) := by
  induction l with
  | nil => simp [insertDesc]
  | cons y ys ih =>
    unfold insertDesc
    by_cases h : keyGe x y
    · simp [h]
    · simp only [h, if_false]
      exact ((ih.cons y).trans (List.Perm.swap x y ys))

theorem sortDesc_perm (l : List (Nat × Int × Int)) : (sortDesc l).Perm l := by
  induction l with
  | nil => simp [sortDesc]
  | cons x xs ih =>
    have : sortDesc (x :: xs) = insertDesc x (sortDesc xs) := rfl
    rw [this]
    exact (insertDesc_perm x (sortDesc xs)).trans (ih.cons x)

theorem insertDesc_sorted {x : Nat × Int × Int} {l : List (Nat × Int × Int)}
    (h : l.Pairwise (fun a b => keyGe a b = true)) :
    (insertDesc x l).Pairwise (fun a b => keyGe a b = true) := by
  induction l with
  | nil => simp [insertDesc]
  | cons y ys ih =>
    unfold insertDesc
    by_cases hxy : keyGe x y
    · simp only [hxy, if_true]
      refine List.Pairwise.cons ?_ h
      intro z hz
      rcases List.mem_cons.mp hz with rfl | hz
      · exact hxy
      · exact keyGe_trans hxy (List.rel_of_pairwise_cons h hz)
    · simp only [hxy, if_false]
      have hyx : keyGe y x = true := (keyGe_total x y).resolve_left (by simpa using hxy)
      refine List.Pairwise.cons ?_ (ih (List.Pairwise.sublist (List.sublist_cons_self y ys) h))
      intro z hz
      have hz' := (insertDesc_perm x ys).mem_iff.mp hz
      rcases List.mem_cons.mp hz' with rfl | hz'
      · exact hyx
      · exact List.rel_of_pairwise_cons h hz'

theorem sortDesc_sorted (l : List (Nat × Int × Int)) :
    (sortDesc l).Pairwise (fun a b => keyGe a b = true) := by
  induction l with
  | nil => simp [sortDesc]
  | cons x xs ih => exact insertDesc_sorted ih

/-! ## `_top_candidates` -/

theorem mem_tcCells {ai : BattleshipAI} {heat : Int → Int → Nat}
    {knowledge : Int → Int → Int} {t : Nat × Int × Int} :
    t ∈ ai.tcCells heat knowledge ↔
      cellInRange ai.size t.2.1 t.2.2 ∧ knowledge t.2.1 t.2.2 = UNKNOWN ∧
        t.1 = heat t.2.1 t.2.2 := by
  unfold BattleshipAI.tcCells
  simp only [List.mem_filterMap]
  constructor
  · rintro ⟨p, hp, hif⟩
    by_cases hu : knowledge p.1 p.2 = UNKNOWN
    · rw [if_pos hu] at hif
      cases hif
      exact ⟨mem_allCoords.mp hp, hu, rfl⟩
    · rw [if_neg hu] at hif; cases hif
  · rintro ⟨hin, hu, hh⟩
    refine ⟨(t.2.1, t.2.2), mem_allCoords.mpr hin, ?_⟩
    show (if knowledge t.2.1 t.2.2 = UNKNOWN then
      some (heat t.2.1 t.2.2, t.2.1, t.2.2) else none) = some t
    rw [if_pos hu, ← hh]

theorem mem_top_candidates_of_mem {ai : BattleshipAI} {heat : Int → Int → Nat}
    {knowledge : Int → Int → Int} {kk : Nat} {p : Coord}
    (h : p ∈ ai.top_candidates heat knowledge kk) :
    cellInRange ai.size p.1 p.2 ∧ knowledge p.1 p.2 = UNKNOWN := by
  unfold BattleshipAI.top_candidates at h
  have key : ∀ t ∈ ai.tcTop heat knowledge kk,
      cellInRange ai.size t.2.1 t.2.2 ∧ knowledge t.2.1 t.2.2 = UNKNOWN := by
    intro t ht
    have h1 : t ∈ sortDesc (ai.tcCells heat knowledge) := List.mem_of_mem_take ht
    have h2 : t ∈ ai.tcCells heat knowledge := (sortDesc_perm _).mem_iff.mp h1
    exact ⟨(mem_tcCells.mp h2).1, (mem_tcCells.mp h2).2.1⟩
  by_cases hpos : ((ai.tcTop heat knowledge kk).filter (fun t => decide (0 < t.1))).isEmpty
  · simp only [hpos, if_true, List.mem_map] at h
    · rcases h with ⟨t, ht, rfl⟩
      exact key t ht
  · simp only [hpos, if_false, List.mem_map] at h
    rcases h with ⟨t, ht, rfl⟩
    exact key t (List.mem_of_mem_filter ht)

theorem top_candidates_ne_nil {ai : BattleshipAI} {heat : Int → Int → Nat}
    {knowledge : Int → Int → Int} {kk : Nat} (hk : 0 < kk)
    (h : ∃ p : Coord, cellInRange ai.size p.1 p.2 ∧ knowledge p.1 p.2 = UNKNOWN) :
    ai.top_candidates heat knowledge kk ≠ [] := by
  rcases h with ⟨p, hin, hu⟩
  have hcell : (heat p.1 p.2, p.1, p.2) ∈ ai.tcCells heat knowledge :=
    mem_tcCells.mpr ⟨hin, hu, rfl⟩
  have hne : ai.tcCells heat knowledge ≠ [] := by
    intro hnil; rw [hnil] at hcell; cases hcell
  have hlen : 0 < (sortDesc (ai.tcCells heat knowledge)).length := by
    rw [(sortDesc_perm _).length_eq]
    exact List.length_pos.mpr hne
  have htop : ai.tcTop heat knowledge kk ≠ [] := by
    unfold BattleshipAI.tcTop
    intro hnil
    have := congrArg List.length hnil
    simp only [List.length_take, List.length_nil] at this
    omega
  unfold BattleshipAI.top_candidates
  by_cases hpos : ((ai.tcTop heat knowledge kk).filter (fun t => decide (0 < t.1))).isEmpty
  · simp only [hpos, if_true]
    intro hnil
    exact htop (List.map_eq_nil_iff.mp hnil)
  · simp only [hpos, if_false]
    intro hnil
    rw [List.map_eq_nil_iff.mp hnil] at hpos
    exact hpos rfl

theorem mem_tcTop_mem_tcCells {ai : BattleshipAI} {heat : Int → Int → Nat}
    {knowledge : Int → Int → Int} {kk : Nat} {t : Nat × Int × Int}
    (h : t ∈ ai.tcTop heat knowledge kk) : t ∈ ai.tcCells heat knowledge :=
  (sortDesc_perm _).mem_iff.mp (List.mem_of_mem_take h)

theorem tcTop_dominates {ai : BattleshipAI} {heat : Int → Int → Nat}
    {knowledge : Int → Int → Int} {kk : Nat} {a b : Nat × Int × Int}
    (ha : a ∈ ai.tcTop heat knowledge kk)
    (hb : b ∈ (sortDesc (ai.tcCells heat knowledge)).drop kk) : keyGe a b = true := by
  have hsorted := sortDesc_sorted (ai.tcCells heat knowledge)
  rw [← List.take_append_drop kk (sortDesc (ai.tcCells heat knowledge)),
    List.pairwise_append] at hsorted
  exact hsorted.2.2 a ha b hb

/-- C7 counterexample: on a 3×3 all-Unknown grid (9 Unknown cells, so at
least `k = 8` of them) with exactly one positive-heat cell,
`_top_candidates` returns that single cell, not the 8 highest-heat
Unknown cells the claim promises. -/
theorem top_candidates_not_topk :
    ((allCoords 3).countP
        (fun p => decide ((fun _ _ => UNKNOWN : Int → Int → Int) p.1 p.2 = UNKNOWN)) = 9) ∧
    (BattleshipAI.mk 3 [2]).top_candidates
        (fun r c => if r = 0 ∧ c = 0 then 1 else 0) (fun _ _ => UNKNOWN) 8 = [(0, 0)] ∧
    ((BattleshipAI.mk 3 [2]).top_candidates
        (fun r c => if r = 0 ∧ c = 0 then 1 else 0) (fun _ _ => UNKNOWN) 8).length ≠ 8 := by
  refine ⟨by decide, by decide, by decide⟩

/-- C7 amended: every returned cell is an in-range Unknown cell; a cell is
returned iff its `(heat, r, c)` triple is among the `k` lexicographically
largest (ties broken by the fixed descending coordinate order) and either
its heat is positive or no triple of that top-`k` has positive heat; the
top-`k` triples dominate all remaining Unknown-cell triples; and the
result is non-empty whenever `k > 0` and some in-range Unknown cell
exists. -/
theorem top_candidates_spec (ai : BattleshipAI) (heat : Int → Int → Nat)
    (knowledge : Int → Int → Int) (kk : Nat) :
    (∀ p ∈ ai.top_candidates heat knowledge kk,
        cellInRange ai.size p.1 p.2 ∧ knowledge p.1 p.2 = UNKNOWN) ∧
    (∀ p : Coord, p ∈ ai.top_candidates heat knowledge kk ↔
        ((heat p.1 p.2, p.1, p.2) ∈ ai.tcTop heat knowledge kk ∧
          (0 < heat p.1 p.2 ∨ ∀ t ∈ ai.tcTop heat knowledge kk, t.1 = 0))) ∧
    (∀ a ∈ ai.tcTop heat knowledge kk,
      ∀ b ∈ (sortDesc (ai.tcCells heat knowledge)).drop kk, keyGe a b = true) ∧
    (0 < kk →
      (∃ p : Coord, cellInRange ai.size p.1 p.2 ∧ knowledge p.1 p.2 = UNKNOWN) →
      ai.top_candidates heat knowledge kk ≠ []) := by
  have hkey : ∀ t ∈ ai.tcTop heat knowledge kk, t = (heat t.2.1 t.2.2, t.2.1, t.2.2) := by
    intro t ht
    have h2 := mem_tcCells.mp (mem_tcTop_mem_tcCells ht)
    rcases t with ⟨s, r, c⟩
    simp only at h2 ⊢
    rw [h2.2.2]
  refine ⟨?_, ?_, fun a ha b hb => tcTop_dominates ha hb, fun hk h => top_candidates_ne_nil hk h⟩
  · intro p hp; exact mem_top_candidates_of_mem hp
  · intro p
    unfold BattleshipAI.top_candidates
    by_cases hpos : ((ai.tcTop heat knowledge kk).filter (fun t => decide (0 < t.1))).isEmpty
    · rw [if_pos hpos]
      have hzero : ∀ t ∈ ai.tcTop heat knowledge kk, t.1 = 0 := by
        intro t ht
        by_contra hne
        have : t ∈ (ai.tcTop heat knowledge kk).filter (fun t => decide (0 < t.1)) :=
          List.mem_filter.mpr ⟨ht, by simpa using Nat.pos_of_ne_zero hne⟩
        rw [List.isEmpty_iff] at hpos
        rw [hpos] at this
        cases this
      constructor
      · rintro hmem
        rcases List.mem_map.mp hmem with ⟨t, ht, hco⟩
        have ht' := hkey t ht
        refine ⟨?_, Or.inr hzero⟩
        rw [ht'] at ht
        rw [← hco]
        simpa using ht
      · rintro ⟨hmem, _⟩
        exact List.mem_map.mpr ⟨(heat p.1 p.2, p.1, p.2), hmem, rfl⟩
    · rw [if_neg hpos]
      constructor
      · intro hmem
        rcases List.mem_map.mp hmem with ⟨t, ht, hco⟩
        have htop := List.mem_of_mem_filter ht
        have hpt : (0 < t.1) := by
          have := (List.mem_filter.mp ht).2
          simpa using this
        have ht' := hkey t htop
        rw [ht'] at htop hpt
        rw [← hco]
        exact ⟨by simpa using htop, Or.inl (by simpa using hpt)⟩
      · rintro ⟨hmem, hdisj⟩
        rcases hdisj with hp | hall
        · refine List.mem_map.mpr ⟨(heat p.1 p.2, p.1, p.2), ?_, rfl⟩
          exact List.mem_filter.mpr ⟨hmem, by simpa using hp⟩
        · exfalso
          have hne : (ai.tcTop heat knowledge kk).filter (fun t => decide (0 < t.1)) ≠ [] := by
            intro hnil
            exact hpos (by rw [hnil]; rfl)
          rcases List.exists_mem_of_ne_nil _ hne with ⟨t, ht⟩
          have := hall t (List.mem_of_mem_filter ht)
          have hpt := (List.mem_filter.mp ht).2
          simp only [decide_eq_true_eq] at hpt
          omega

/-- Witness for C7's amended theorem: on a 1×1 all-Unknown grid with zero
heat and `k = 1`, the non-emptiness clause applies and the result is
non-empty. -/
theorem top_candidates_spec_witness :
    (BattleshipAI.mk 1 []).top_candidates (fun _ _ => 0) (fun _ _ => UNKNOWN) 1 ≠ [] :=
  (top_candidates_spec (BattleshipAI.mk 1 []) (fun _ _ => 0) (fun _ _ => UNKNOWN) 1).2.2.2
    (by decide) ⟨(0, 0), by decide, rfl⟩

/-! ## `_target_candidates` -/

/-- What `_target_candidates` emits for one hit-cluster, before duplicate
suppression: for an ambiguous cluster, every in-range UNKNOWN orthogonal
neighbor of each cluster cell; for an oriented cluster, the UNKNOWN cell
one step beyond each end of the cluster's span along its axis (guarded by
the grid edge), and nothing else. -/
def clusterEmits (ai : BattleshipAI) (knowledge : Int → Int → Int) :
    Cluster → Coord → Prop
  | ([], _), _ => False
  | (q :: rest, none), p =>
    ∃ x ∈ q :: rest, ∃ d ∈ dirs,
      cellInRange ai.size (x.1 + d.1) (x.2 + d.2) ∧
      knowledge (x.1 + d.1) (x.2 + d.2) = UNKNOWN ∧
      p = (x.1 + d.1, x.2 + d.2)
  | (q :: rest, some Orient.h), p =>
    (p = (q.1, rest.foldl (fun m x => min m x.2) q.2 - 1) ∧
      0 ≤ rest.foldl (fun m x => min m x.2) q.2 - 1 ∧
      knowledge q.1 (rest.foldl (fun m x => min m x.2) q.2 - 1) = UNKNOWN) ∨
    (p = (q.1, rest.foldl (fun m x => max m x.2) q.2 + 1) ∧
      rest.foldl (fun m x => max m x.2) q.2 + 1 < (ai.size : Int) ∧
      knowledge q.1 (rest.foldl (fun m x => max m x.2) q.2 + 1) = UNKNOWN)
  | (q :: rest, some Orient.v), p =>
    (p = (rest.foldl (fun m x => min m x.1) q.1 - 1, q.2) ∧
      0 ≤ rest.foldl (fun m x => min m x.1) q.1 - 1 ∧
      knowledge (rest.foldl (fun m x => min m x.1) q.1 - 1) q.2 = UNKNOWN) ∨
    (p = (rest.foldl (fun m x => max m x.1) q.1 + 1, q.2) ∧
      rest.foldl (fun m x => max m x.1) q.1 + 1 < (ai.size : Int) ∧
      knowledge (rest.foldl (fun m x => max m x.1) q.1 + 1) q.2 = UNKNOWN)

theorem mem_emitCellNbrs {ai : BattleshipAI} {knowledge : Int → Int → Int}
    {p : Coord} (ds : List (Int × Int)) (acc : List Coord) (x : Coord) :
    x ∈ emitCellNbrs ai knowledge p ds acc ↔
      x ∈ acc ∨ ∃ d ∈ ds, cellInRange ai.size (p.1 + d.1) (p.2 + d.2) ∧
        knowledge (p.1 + d.1) (p.2 + d.2) = UNKNOWN ∧ x = (p.1 + d.1, p.2 + d.2) := by
  induction ds generalizing acc with
  | nil => simp [emitCellNbrs]
  | cons d ds ih =>
    rw [emitCellNbrs, ih, List.exists_mem_cons_iff]
    by_cases hc : cellInRange ai.size (p.1 + d.1) (p.2 + d.2) ∧
        knowledge (p.1 + d.1) (p.2 + d.2) = UNKNOWN
    · rw [if_pos hc, mem_pushIfNew]
      tauto
    · rw [if_neg hc]
      tauto

theorem mem_emitNbrs {ai : BattleshipAI} {knowledge : Int → Int → Int}
    (comp : List Coord) (acc : List Coord) (x : Coord) :
    x ∈ emitNbrs ai knowledge comp acc ↔
      x ∈ acc ∨ ∃ q ∈ comp, ∃ d ∈ dirs, cellInRange ai.size (q.1 + d.1) (q.2 + d.2) ∧
        knowledge (q.1 + d.1) (q.2 + d.2) = UNKNOWN ∧ x = (q.1 + d.1, q.2 + d.2) := by
  induction comp generalizing acc with
  | nil => simp [emitNbrs]
  | cons q qs ih =>
    rw [emitNbrs, ih, mem_emitCellNbrs, List.exists_mem_cons_iff]
    exact or_assoc

theorem nodup_emitCellNbrs {ai : BattleshipAI} {knowledge : Int → Int → Int}
    {p : Coord} (ds : List (Int × Int)) (acc : List Coord) (h : acc.Nodup) :
    (emitCellNbrs ai knowledge p ds acc).Nodup := by
  induction ds generalizing acc with
  | nil => simpa [emitCellNbrs]
  | cons d ds ih =>
    rw [emitCellNbrs]
    by_cases hc : cellInRange ai.size (p.1 + d.1) (p.2 + d.2) ∧
        knowledge (p.1 + d.1) (p.2 + d.2) = UNKNOWN
    · rw [if_pos hc]
      exact ih _ (nodup_pushIfNew h)
    · rw [if_neg hc]
      exact ih _ h

theorem nodup_emitNbrs {ai : BattleshipAI} {knowledge : Int → Int → Int}
    (comp : List Coord) (acc : List Coord) (h : acc.Nodup) :
    (emitNbrs ai knowledge comp acc).Nodup := by
  induction comp generalizing acc with
  | nil => simpa [emitNbrs]
  | cons q qs ih => exact ih _ (nodup_emitCellNbrs dirs acc h)

theorem mem_clusterStep {ai : BattleshipAI} {knowledge : Int → Int → Int}
    (cl : Cluster) (acc : List Coord) (x : Coord) :
    x ∈ clusterStep ai knowledge cl acc ↔ x ∈ acc ∨ clusterEmits ai knowledge cl x := by
  rcases cl with ⟨comp, orient⟩
  cases comp with
  | nil =>
    cases orient with
    | none => simp [clusterStep, clusterEmits]
    | some o => cases o <;> simp [clusterStep, clusterEmits]
  | cons q rest =>
    cases orient with
    | none =>
      show x ∈ emitNbrs ai knowledge (q :: rest) acc ↔ _
      rw [mem_emitNbrs]
      rfl
    | some o =>
      cases o with
      | h =>
        show x ∈ (if _ ∧ _ then pushIfNew (if _ ∧ _ then pushIfNew acc _ else acc) _
            else (if _ ∧ _ then pushIfNew acc _ else acc)) ↔ _
        by_cases h1 : 0 ≤ rest.foldl (fun m x => min m x.2) q.2 - 1 ∧
            knowledge q.1 (rest.foldl (fun m x => min m x.2) q.2 - 1) = UNKNOWN
        · rw [if_pos h1]
          by_cases h2 : rest.foldl (fun m x => max m x.2) q.2 + 1 < (ai.size : Int) ∧
              knowledge q.1 (rest.foldl (fun m x => max m x.2) q.2 + 1) = UNKNOWN
          · rw [if_pos h2, mem_pushIfNew, mem_pushIfNew]
            show _ ↔ x ∈ acc ∨ (x = _ ∧ _) ∨ (x = _ ∧ _)
            tauto
          · rw [if_neg h2, mem_pushIfNew]
            show _ ↔ x ∈ acc ∨ (x = _ ∧ _) ∨ (x = _ ∧ _)
            tauto
        · rw [if_neg h1]
          by_cases h2 : rest.foldl (fun m x => max m x.2) q.2 + 1 < (ai.size : Int) ∧
              knowledge q.1 (rest.foldl (fun m x => max m x.2) q.2 + 1) = UNKNOWN
          · rw [if_pos h2, mem_pushIfNew]
            show _ ↔ x ∈ acc ∨ (x = _ ∧ _) ∨ (x = _ ∧ _)
            tauto
          · rw [if_neg h2]
            show _ ↔ x ∈ acc ∨ (x = _ ∧ _) ∨ (x = _ ∧ _)
            tauto
      | v =>
        show x ∈ (if _ ∧ _ then pushIfNew (if _ ∧ _ then pushIfNew acc _ else acc) _
            else (if _ ∧ _ then pushIfNew acc _ else acc)) ↔ _
        by_cases h1 : 0 ≤ rest.foldl (fun m x => min m x.1) q.1 - 1 ∧
            knowledge (rest.foldl (fun m x => min m x.1) q.1 - 1) q.2 = UNKNOWN
        · rw [if_pos h1]
          by_cases h2 : rest.foldl (fun m x => max m x.1) q.1 + 1 < (ai.size : Int) ∧
              knowledge (rest.foldl (fun m x => max m x.1) q.1 + 1) q.2 = UNKNOWN
          · rw [if_pos h2, mem_pushIfNew, mem_pushIfNew]
            show _ ↔ x ∈ acc ∨ (x = _ ∧ _) ∨ (x = _ ∧ _)
            tauto
          · rw [if_neg h2, mem_pushIfNew]
            show _ ↔ x ∈ acc ∨ (x = _ ∧ _) ∨ (x = _ ∧ _)
            tauto
        · rw [if_neg h1]
          by_cases h2 : rest.foldl (fun m x => max m x.1) q.1 + 1 < (ai.size : Int) ∧
              knowledge (rest.foldl (fun m x => max m x.1) q.1 + 1) q.2 = UNKNOWN
          · rw [if_pos h2, mem_pushIfNew]
            show _ ↔ x ∈ acc ∨ (x = _ ∧ _) ∨ (x = _ ∧ _)
            tauto
          · rw [if_neg h2]
            show _ ↔ x ∈ acc ∨ (x = _ ∧ _) ∨ (x = _ ∧ _)
            tauto

theorem nodup_clusterStep {ai : BattleshipAI} {knowledge : Int → Int → Int}
    (cl : Cluster) (acc : List Coord) (h : acc.Nodup) :
    (clusterStep ai knowledge cl acc).Nodup := by
  rcases cl with ⟨comp, orient⟩
  cases comp with
  | nil =>
    cases orient with
    | none => simpa [clusterStep]
    | some o => cases o <;> simpa [clusterStep]
  | cons q rest =>
    cases orient with
    | none => exact nodup_emitNbrs _ _ h
    | some o =>
      cases o with
      | h =>
        show List.Nodup (if _ ∧ _ then pushIfNew (if _ ∧ _ then pushIfNew acc _ else acc) _
            else (if _ ∧ _ then pushIfNew acc _ else acc))
        split
        · split
          · exact nodup_pushIfNew (nodup_pushIfNew h)
          · exact nodup_pushIfNew h
        · split
          · exact nodup_pushIfNew h
          · exact h
      | v =>
        show List.Nodup (if _ ∧ _ then pushIfNew (if _ ∧ _ then pushIfNew acc _ else acc) _
            else (if _ ∧ _ then pushIfNew acc _ else acc))
        split
        · split
          · exact nodup_pushIfNew (nodup_pushIfNew h)
          · exact nodup_pushIfNew h
        · split
          · exact nodup_pushIfNew h
          · exact h

theorem mem_targetFold {ai : BattleshipAI} {knowledge : Int → Int → Int}
    (cls : List Cluster) (acc : List Coord) (x : Coord) :
    x ∈ cls.foldl (fun acc cl => clusterStep ai knowledge cl acc) acc ↔
      x ∈ acc ∨ ∃ cl ∈ cls, clusterEmits ai knowledge cl x := by
  induction cls generalizing acc with
  | nil => simp
  | cons cl cls ih =>
    rw [List.foldl_cons, ih, mem_clusterStep, List.exists_mem_cons_iff]
    exact or_assoc

theorem nodup_targetFold {ai : BattleshipAI} {knowledge : Int → Int → Int}
    (cls : List Cluster) (acc : List Coord) (h : acc.Nodup) :
    (cls.foldl (fun acc cl => clusterStep ai knowledge cl acc) acc).Nodup := by
  induction cls generalizing acc with
  | nil => simpa
  | cons cl cls ih => exact ih _ (nodup_clusterStep cl acc h)

theorem foldl_min_snd_le (l : List Coord) (a : Int) :
    l.foldl (fun m x => min m x.2) a ≤ a := by
  induction l generalizing a with
  | nil => simp
  | cons x xs ih =>
    rw [List.foldl_cons]
    exact le_trans (ih (min a x.2)) (min_le_left a x.2)

theorem le_foldl_max_snd (l : List Coord) (a : Int) :
    a ≤ l.foldl (fun m x => max m x.2) a := by
  induction l generalizing a with
  | nil => simp
  | cons x xs ih =>
    rw [List.foldl_cons]
    exact le_trans (le_max_left a x.2) (ih (max a x.2))

theorem foldl_min_fst_le (l : List Coord) (a : Int) :
    l.foldl (fun m x => min m x.1) a ≤ a := by
  induction l generalizing a with
  | nil => simp
  | cons x xs ih =>
    rw [List.foldl_cons]
    exact le_trans (ih (min a x.1)) (min_le_left a x.1)

theorem le_foldl_max_fst (l : List Coord) (a : Int) :
    a ≤ l.foldl (fun m x => max m x.1) a := by
  induction l generalizing a with
  | nil => simp
  | cons x xs ih =>
    rw [List.foldl_cons]
    exact le_trans (le_max_left a x.1) (ih (max a x.1))

theorem clusterEmits_in_range {ai : BattleshipAI} {knowledge : Int → Int → Int}
    {cl : Cluster} {p : Coord}
    (hcl : ∀ q ∈ cl.1, cellInRange ai.size q.1 q.2)
    (h : clusterEmits ai knowledge cl p) :
    cellInRange ai.size p.1 p.2 ∧ knowledge p.1 p.2 = UNKNOWN := by
  rcases cl with ⟨comp, orient⟩
  cases comp with
  | nil =>
    exfalso
    cases orient with
    | none => exact h
    | some o => cases o <;> exact h
  | cons q rest =>
    have hq : cellInRange ai.size q.1 q.2 := hcl q (List.mem_cons_self q rest)
    cases orient with
    | none =>
      rcases h with ⟨x, _, d, _, hin, hu, rfl⟩
      exact ⟨hin, hu⟩
    | some o =>
      cases o with
      | h =>
        rcases h with ⟨rfl, hge, hu⟩ | ⟨rfl, hlt, hu⟩
        · have hmin := foldl_min_snd_le rest q.2
          rcases hq with ⟨h1, h2, h3, h4⟩
          exact ⟨⟨h1, h2, hge, by dsimp only; omega⟩, hu⟩
        · have hmax := le_foldl_max_snd rest q.2
          rcases hq with ⟨h1, h2, h3, h4⟩
          exact ⟨⟨h1, h2, by dsimp only; omega, hlt⟩, hu⟩
      | v =>
        rcases h with ⟨rfl, hge, hu⟩ | ⟨rfl, hlt, hu⟩
        · have hmin := foldl_min_fst_le rest q.1
          rcases hq with ⟨h1, h2, h3, h4⟩
          exact ⟨⟨hge, by dsimp only; omega, h3, h4⟩, hu⟩
        · have hmax := le_foldl_max_fst rest q.1
          rcases hq with ⟨h1, h2, h3, h4⟩
          exact ⟨⟨by dsimp only; omega, hlt, h3, h4⟩, hu⟩

/-! ## Cells of computed hit-clusters are in-range HIT cells -/

theorem dfsPush_inv {k : Int → Int → Int} {size : Nat} {p : Coord}
    (ds : List (Int × Int)) (acc : List Coord × List Coord)
    (h1 : ∀ x ∈ acc.1, cellInRange size x.1 x.2 ∧ k x.1 x.2 = HIT)
    (h2 : ∀ x ∈ acc.2, cellInRange size x.1 x.2 ∧ k x.1 x.2 = HIT) :
    (∀ x ∈ (dfsPush k size p ds acc).1, cellInRange size x.1 x.2 ∧ k x.1 x.2 = HIT) ∧
    (∀ x ∈ (dfsPush k size p ds acc).2, cellInRange size x.1 x.2 ∧ k x.1 x.2 = HIT) := by
  induction ds generalizing acc with
  | nil => exact ⟨h1, h2⟩
  | cons d ds ih =>
    rw [dfsPush]
    by_cases hc : cellInRange size (p.1 + d.1) (p.2 + d.2) ∧
        (p.1 + d.1, p.2 + d.2) ∈ acc.2 ∧ k (p.1 + d.1) (p.2 + d.2) = HIT
    · rw [if_pos hc]
      refine ih _ ?_ ?_
      · intro x hx
        rcases List.mem_cons.mp hx with rfl | hx
        · exact ⟨hc.1, hc.2.2⟩
        · exact h1 x hx
      · intro x hx
        exact h2 x (List.mem_of_mem_erase hx)
    · rw [if_neg hc]
      exact ih _ h1 h2

theorem dfsHits_inv {k : Int → Int → Int} {size : Nat}
    (fuel : Nat) (stack free : List Coord)
    (h1 : ∀ x ∈ stack, cellInRange size x.1 x.2 ∧ k x.1 x.2 = HIT)
    (h2 : ∀ x ∈ free, cellInRange size x.1 x.2 ∧ k x.1 x.2 = HIT) :
    (∀ x ∈ (dfsHits k size fuel stack free).1, cellInRange size x.1 x.2 ∧ k x.1 x.2 = HIT) ∧
    (∀ x ∈ (dfsHits k size fuel stack free).2, cellInRange size x.1 x.2 ∧ k x.1 x.2 = HIT) := by
  induction fuel generalizing stack free with
  | zero =>
    rw [dfsHits]
    refine ⟨?_, h2⟩
    intro x hx
    cases hx
  | succ fuel ih =>
    cases stack with
    | nil =>
      rw [dfsHits]
      refine ⟨?_, h2⟩
      intro x hx
      cases hx
    | cons p stack =>
      rw [dfsHits]
      have hpush := dfsPush_inv (p := p) dirs (stack, free)
        (fun x hx => h1 x (List.mem_cons_of_mem p hx)) h2
      have hrest := ih _ _ hpush.1 hpush.2
      refine ⟨?_, hrest.2⟩
      intro x hx
      rcases List.mem_cons.mp hx with rfl | hx
      · exact h1 x (List.mem_cons_self x stack)
      · exact hrest.1 x hx

theorem hit_clusters_cells {ai : BattleshipAI} {knowledge : Int → Int → Int} :
    ∀ cl ∈ ai.hit_clusters knowledge, ∀ q ∈ cl.1,
      cellInRange ai.size q.1 q.2 ∧ knowledge q.1 q.2 = HIT := by
  have main : ∀ (coords : List Coord) (acc : List Cluster × List Coord),
      (∀ cl ∈ acc.1, ∀ q ∈ cl.1, cellInRange ai.size q.1 q.2 ∧ knowledge q.1 q.2 = HIT) →
      (∀ x ∈ acc.2, cellInRange ai.size x.1 x.2 ∧ knowledge x.1 x.2 = HIT) →
      ∀ cl ∈ (coords.foldl (clusterScanStep ai knowledge) acc).1, ∀ q ∈ cl.1,
        cellInRange ai.size q.1 q.2 ∧ knowledge q.1 q.2 = HIT := by
    intro coords
    induction coords with
    | nil => intro acc h1 _ cl hcl; exact h1 cl hcl
    | cons p coords ih =>
      intro acc h1 h2
      rw [List.foldl_cons]
      apply ih
      · unfold clusterScanStep
        by_cases hp : p ∈ acc.2
        · rw [if_pos hp]
          intro cl hcl
          rcases List.mem_append.mp hcl with hcl | hcl
          · exact h1 cl hcl
          · have hd := dfsHits_inv (acc.2.length + 1) [p] (acc.2.erase p)
              (by intro x hx
                  rcases List.mem_singleton.mp hx with rfl
                  exact h2 x hp)
              (fun x hx => h2 x (List.mem_of_mem_erase hx))
            rcases List.mem_singleton.mp hcl with rfl
            exact hd.1
        · rw [if_neg hp]
          exact h1
      · unfold clusterScanStep
        by_cases hp : p ∈ acc.2
        · rw [if_pos hp]
          have hd := dfsHits_inv (acc.2.length + 1) [p] (acc.2.erase p)
            (by intro x hx
                rcases List.mem_singleton.mp hx with rfl
                exact h2 x hp)
            (fun x hx => h2 x (List.mem_of_mem_erase hx))
          exact hd.2
        · rw [if_neg hp]
          exact h2
  intro cl hcl
  refine main (allCoords ai.size) _ (by intro cl hcl; cases hcl) ?_ cl hcl
  intro x hx
  have := List.mem_filter.mp hx
  exact ⟨mem_allCoords.mp this.1, by simpa using this.2⟩

/-- Every candidate emitted by `_target_candidates` is an in-range
UNKNOWN cell (used both for C2 and C4). -/
theorem target_candidates_mem {ai : BattleshipAI} {knowledge : Int → Int → Int}
    {p : Coord} (h : p ∈ ai.target_candidates knowledge) :
    cellInRange ai.size p.1 p.2 ∧ knowledge p.1 p.2 = UNKNOWN := by
  unfold BattleshipAI.target_candidates at h
  rcases (mem_targetFold _ _ _).mp h with hx | ⟨cl, hcl, hemit⟩
  · cases hx
  · exact clusterEmits_in_range
      (fun q hq => (hit_clusters_cells cl hcl q hq).1) hemit

/-- Scenario B knowledge grid: a single HIT at `(4, 4)`, all else Unknown. -/
def kSingleHit : Int → Int → Int :=
  fun r c => if r = 4 ∧ c = 4 then HIT else UNKNOWN

/-- Scenario C knowledge grid: HITs at `(4, 4)` and `(4, 5)`, all else
Unknown. -/
def kPairHits : Int → Int → Int :=
  fun r c => if r = 4 ∧ (c = 4 ∨ c = 5) then HIT else UNKNOWN

set_option maxRecDepth 100000 in
/-- C4: `_target_candidates` returns a duplicate-free list; a cell is
returned iff some computed hit-cluster emits it (every in-range Unknown
orthogonal neighbor of a cell of an ambiguous cluster; only the Unknown
cell one step beyond each end of an oriented cluster's span); on the
10×10 grid with a single HIT at (4,4) the result is exactly the four
orthogonal neighbors, each once; with HITs at (4,4),(4,5) it is exactly
(4,3) and (4,6). -/
theorem target_candidates_spec :
    (∀ (ai : BattleshipAI) (knowledge : Int → Int → Int),
      (ai.target_candidates knowledge).Nodup) ∧
    (∀ (ai : BattleshipAI) (knowledge : Int → Int → Int) (p : Coord),
      p ∈ ai.target_candidates knowledge ↔
        ∃ cl ∈ ai.hit_clusters knowledge, clusterEmits ai knowledge cl p) ∧
    ((BattleshipAI.mk 10 STANDARD_SHIPS).target_candidates kSingleHit).Perm
      [(3, 4), (5, 4), (4, 3), (4, 5)] ∧
    (BattleshipAI.mk 10 STANDARD_SHIPS).target_candidates kPairHits = [(4, 3), (4, 6)] := by
  refine ⟨?_, ?_, ?_, ?_⟩
  · intro ai knowledge
    exact nodup_targetFold _ _ List.nodup_nil
  · intro ai knowledge p
    unfold BattleshipAI.target_candidates
    rw [mem_targetFold]
    simp
  · decide
  · decide

/-! ## `choose_shot` -/

theorem headD_mem {l : List Coord} (h : l ≠ []) (d : Coord) : l.headD d ∈ l := by
  cases l with
  | nil => exact absurd rfl h
  | cons a l => exact List.mem_cons_self a l

theorem foldl_best_mem (f : Coord → ℚ) (l : List Coord) (st : Coord × ℚ) :
    (l.foldl (fun st p => if st.2 < f p then (p, f p) else st) st).1 = st.1 ∨
    (l.foldl (fun st p => if st.2 < f p then (p, f p) else st) st).1 ∈ l := by
  induction l generalizing st with
  | nil => exact Or.inl rfl
  | cons x xs ih =>
    rw [List.foldl_cons]
    rcases ih (if st.2 < f x then (x, f x) else st) with heq | hmem
    · rw [heq]
      by_cases hc : st.2 < f x
      · rw [if_pos hc]
        exact Or.inr (List.mem_cons_self x xs)
      · rw [if_neg hc]
        exact Or.inl rfl
    · exact Or.inr (List.mem_cons_of_mem x hmem)

theorem candidatesOf_mem {ai : BattleshipAI} {knowledge : Int → Int → Int} {p : Coord}
    (h : p ∈ ai.candidatesOf knowledge) :
    cellInRange ai.size p.1 p.2 ∧ knowledge p.1 p.2 = UNKNOWN := by
  unfold BattleshipAI.candidatesOf at h
  by_cases hT : (ai.target_candidates knowledge).isEmpty
  · rw [if_pos hT] at h
    exact mem_top_candidates_of_mem h
  · rw [if_neg hT] at h
    exact target_candidates_mem h

theorem candidatesOf_ne_nil {ai : BattleshipAI} {knowledge : Int → Int → Int}
    (h : ∃ p : Coord, cellInRange ai.size p.1 p.2 ∧ knowledge p.1 p.2 = UNKNOWN) :
    ai.candidatesOf knowledge ≠ [] := by
  unfold BattleshipAI.candidatesOf
  by_cases hT : (ai.target_candidates knowledge).isEmpty
  · rw [if_pos hT]
    exact top_candidates_ne_nil (by omega) h
  · rw [if_neg hT]
    intro hnil
    rw [hnil] at hT
    exact hT rfl

theorem choose_shot_mem_candidates {ai : BattleshipAI}
    {pbk psab : Int → Int → Int} {ships? : Option (List Nat)}
    (hne : ai.candidatesOf pbk ≠ []) :
    ai.choose_shot pbk psab ships? ∈ ai.candidatesOf pbk := by
  unfold BattleshipAI.choose_shot
  have hE : ¬ ((ai.candidatesOf pbk).isEmpty = true) := by
    intro hx
    exact hne (List.isEmpty_iff.mp hx)
  rw [if_neg hE]
  rcases foldl_best_mem _ (ai.candidatesOf pbk) ((ai.candidatesOf pbk).headD (0, 0),
      -(1000000000 : ℚ)) with heq | hmem
  · rw [heq]
    exact headD_mem hne (0, 0)
  · exact hmem

/-- C2: whenever the knowledge grid has at least one in-range Unknown
cell, `choose_shot` returns an in-bounds coordinate whose knowledge value
is Unknown (never HIT or MISS); totality for arbitrary grids holds by
construction of the embedding. -/
theorem choose_shot_spec (ai : BattleshipAI)
    (pbk psab : Int → Int → Int) (ships? : Option (List Nat))
    (h : ∃ p : Coord, cellInRange ai.size p.1 p.2 ∧ pbk p.1 p.2 = UNKNOWN) :
    cellInRange ai.size (ai.choose_shot pbk psab ships?).1
      (ai.choose_shot pbk psab ships?).2 ∧
    pbk (ai.choose_shot pbk psab ships?).1 (ai.choose_shot pbk psab ships?).2 = UNKNOWN :=
  candidatesOf_mem (choose_shot_mem_candidates (candidatesOf_ne_nil h))

/-- Witness for C2 on a concrete 2×2 all-Unknown board. -/
theorem choose_shot_spec_witness :
    cellInRange 2 ((BattleshipAI.mk 2 [2]).choose_shot (fun _ _ => UNKNOWN)
        (fun _ _ => UNKNOWN) none).1
      ((BattleshipAI.mk 2 [2]).choose_shot (fun _ _ => UNKNOWN)
        (fun _ _ => UNKNOWN) none).2 ∧
    (fun _ _ => UNKNOWN : Int → Int → Int)
      ((BattleshipAI.mk 2 [2]).choose_shot (fun _ _ => UNKNOWN)
        (fun _ _ => UNKNOWN) none).1
      ((BattleshipAI.mk 2 [2]).choose_shot (fun _ _ => UNKNOWN)
        (fun _ _ => UNKNOWN) none).2 = UNKNOWN :=
  choose_shot_spec (BattleshipAI.mk 2 [2]) (fun _ _ => UNKNOWN) (fun _ _ => UNKNOWN) none
    ⟨(0, 0), by decide, rfl⟩

/-! ## Falsy empty ship lists (C10) -/

theorem resolveShips_some_self (ai : BattleshipAI) :
    resolveShips ai (some ai.remaining_ships) = ai.remaining_ships := by
  show (if ai.remaining_ships.isEmpty then ai.remaining_ships else ai.remaining_ships) =
    ai.remaining_ships
  split <;> rfl

/-- C10: an explicitly empty remaining-ships list is falsy in Python, so
`heatmap(knowledge, [])` uses the instance's `remaining_ships` (the same
result as passing nothing), and `choose_shot` with an empty
`ai_remaining_ships` estimates the counter-gain with `STANDARD_SHIPS`. -/
theorem empty_ships_fallback :
    (∀ (ai : BattleshipAI) (knowledge : Int → Int → Int),
      ai.heatmap knowledge (some []) = ai.heatmap knowledge (some ai.remaining_ships) ∧
      ai.heatmap knowledge (some []) = ai.heatmap knowledge none) ∧
    (∀ (ai : BattleshipAI) (pbk psab : Int → Int → Int),
      ai.choose_shot pbk psab (some []) = ai.choose_shot pbk psab (some STANDARD_SHIPS)) := by
  refine ⟨fun ai knowledge => ⟨?_, rfl⟩, fun ai pbk psab => rfl⟩
  unfold BattleshipAI.heatmap
  rw [resolveShips_some_self]
  rfl

/-! ## `_best_counter_gain` (C8) -/

theorem bestFold_le_result (kp : Int → Int → Int) (hp : Int → Int → Nat)
    (l : List Coord) (b : Nat) :
    b ≤ l.foldl (fun b p => if kp p.1 p.2 = UNKNOWN ∧ b < hp p.1 p.2 then hp p.1 p.2 else b) b := by
  induction l generalizing b with
  | nil => exact le_refl b
  | cons x xs ih =>
    rw [List.foldl_cons]
    by_cases hc : kp x.1 x.2 = UNKNOWN ∧ b < hp x.1 x.2
    · rw [if_pos hc]
      exact le_trans (le_of_lt hc.2) (ih _)
    · rw [if_neg hc]
      exact ih b

theorem bestFold_result_cases (kp : Int → Int → Int) (hp : Int → Int → Nat)
    (l : List Coord) (b : Nat) :
    l.foldl (fun b p => if kp p.1 p.2 = UNKNOWN ∧ b < hp p.1 p.2 then hp p.1 p.2 else b) b = b ∨
    ∃ p ∈ l, kp p.1 p.2 = UNKNOWN ∧
      l.foldl (fun b p => if kp p.1 p.2 = UNKNOWN ∧ b < hp p.1 p.2 then hp p.1 p.2 else b) b =
        hp p.1 p.2 := by
  induction l generalizing b with
  | nil => exact Or.inl rfl
  | cons x xs ih =>
    rw [List.foldl_cons]
    by_cases hc : kp x.1 x.2 = UNKNOWN ∧ b < hp x.1 x.2
    · rw [if_pos hc]
      rcases ih (hp x.1 x.2) with heq | ⟨p, hp', hu, heq⟩
      · exact Or.inr ⟨x, List.mem_cons_self x xs, hc.1, heq⟩
      · exact Or.inr ⟨p, List.mem_cons_of_mem x hp', hu, heq⟩
    · rw [if_neg hc]
      rcases ih b with heq | ⟨p, hp', hu, heq⟩
      · exact Or.inl heq
      · exact Or.inr ⟨p, List.mem_cons_of_mem x hp', hu, heq⟩

theorem bestFold_is_ub (kp : Int → Int → Int) (hp : Int → Int → Nat)
    (l : List Coord) (b : Nat) {p : Coord} (hmem : p ∈ l) (hu : kp p.1 p.2 = UNKNOWN) :
    hp p.1 p.2 ≤
      l.foldl (fun b p => if kp p.1 p.2 = UNKNOWN ∧ b < hp p.1 p.2 then hp p.1 p.2 else b) b := by
  induction l generalizing b with
  | nil => cases hmem
  | cons x xs ih =>
    rw [List.foldl_cons]
    rcases List.mem_cons.mp hmem with rfl | hmem
    · by_cases hc : kp p.1 p.2 = UNKNOWN ∧ b < hp p.1 p.2
      · rw [if_pos hc]
        exact bestFold_le_result kp hp xs _
      · rw [if_neg hc]
        have hle : hp p.1 p.2 ≤ b := by
          rcases Nat.lt_or_ge b (hp p.1 p.2) with hlt | hge
          · exact absurd ⟨hu, hlt⟩ hc
          · exact hge
        exact le_trans hle (bestFold_le_result kp hp xs b)
    · exact ih _ hmem

theorem heat_le_sumHeat {ai : BattleshipAI} {hp : Int → Int → Nat} {p : Coord}
    (hmem : p ∈ allCoords ai.size) : hp p.1 p.2 ≤ sumHeat ai hp := by
  unfold sumHeat
  exact List.single_le_sum (by intro x _; exact Nat.zero_le x) _
    (List.mem_map.mpr ⟨p, hmem, rfl⟩)

/-- C8: `_best_counter_gain` returns 0 when the total heat is 0; when the
total is positive it returns the maximum heat among the opponent's
Unknown in-range cells divided by the total (0 when no Unknown cell has
positive heat); and the result always lies in [0, 1]. -/
theorem best_counter_gain_spec (ai : BattleshipAI) (kp : Int → Int → Int)
    (ships : List Nat) :
    (sumHeat ai (ai.heatmap kp (some ships)) = 0 → ai.best_counter_gain kp ships = 0) ∧
    (sumHeat ai (ai.heatmap kp (some ships)) ≠ 0 →
      ((ai.best_counter_gain kp ships = 0 ∧
        ∀ q : Coord, cellInRange ai.size q.1 q.2 → kp q.1 q.2 = UNKNOWN →
          ai.heatmap kp (some ships) q.1 q.2 = 0) ∨
       (∃ p : Coord, cellInRange ai.size p.1 p.2 ∧ kp p.1 p.2 = UNKNOWN ∧
          ai.best_counter_gain kp ships =
            (ai.heatmap kp (some ships) p.1 p.2 : ℚ) /
              (sumHeat ai (ai.heatmap kp (some ships)) : ℚ) ∧
          ∀ q : Coord, cellInRange ai.size q.1 q.2 → kp q.1 q.2 = UNKNOWN →
            ai.heatmap kp (some ships) q.1 q.2 ≤ ai.heatmap kp (some ships) p.1 p.2))) ∧
    (0 ≤ ai.best_counter_gain kp ships ∧ ai.best_counter_gain kp ships ≤ 1) := by
  set hp := ai.heatmap kp (some ships) with hhp
  set best := (allCoords ai.size).foldl
    (fun b p => if kp p.1 p.2 = UNKNOWN ∧ b < hp p.1 p.2 then hp p.1 p.2 else b) 0 with hbest
  have hbcg : ai.best_counter_gain kp ships =
      (if sumHeat ai hp = 0 then 0
       else if best = 0 then 0 else ((best : ℚ) / (sumHeat ai hp : ℚ))) := rfl
  by_cases htot : sumHeat ai hp = 0
  · rw [hbcg, if_pos htot]
    exact ⟨fun _ => rfl, fun hne => absurd htot hne, le_refl 0, by norm_num⟩
  · rw [hbcg, if_neg htot]
    have hmax : ∀ q : Coord, cellInRange ai.size q.1 q.2 → kp q.1 q.2 = UNKNOWN →
        hp q.1 q.2 ≤ best :=
      fun q hq hu => bestFold_is_ub kp hp _ 0 (mem_allCoords.mpr hq) hu
    by_cases hb0 : best = 0
    · rw [if_pos hb0]
      refine ⟨fun h => absurd h htot, ?_, le_refl 0, by norm_num⟩
      intro _
      left
      refine ⟨rfl, fun q hq hu => ?_⟩
      have := hmax q hq hu
      omega
    · rw [if_neg hb0]
      have hcase := bestFold_result_cases kp hp (allCoords ai.size) 0
      rw [← hbest] at hcase
      rcases hcase with heq | ⟨p, hpmem, hu, heq⟩
      · exact absurd heq hb0
      · have hple : best ≤ sumHeat ai hp := by
          rw [heq]
          exact heat_le_sumHeat hpmem
        have htpos : (0 : ℚ) < (sumHeat ai hp : ℚ) := by
          have : 0 < sumHeat ai hp := Nat.pos_of_ne_zero htot
          exact_mod_cast this
        refine ⟨fun h => absurd h htot, ?_, ?_, ?_⟩
        · intro _
          right
          refine ⟨p, mem_allCoords.mp hpmem, hu, ?_, fun q hq hu' => by
            have := hmax q hq hu'
            omega⟩
          rw [heq]
        · positivity
        · rw [div_le_one htpos]
          exact_mod_cast hple

/-- Witness for C8: with no remaining ships the heatmap is identically 0,
the total is 0 and the counter gain is 0. -/
theorem best_counter_gain_spec_witness :
    (BattleshipAI.mk 1 []).best_counter_gain (fun _ _ => UNKNOWN) [] = 0 :=
  (best_counter_gain_spec (BattleshipAI.mk 1 []) (fun _ _ => UNKNOWN) []).1 (by decide)

/-! ## Placement validity and cluster consistency (C1) -/

theorem filter_isEmpty_iff_no_inter {cells comp : List Coord} :
    ((comp.filter (fun q => decide (q ∈ cells))).isEmpty = true) ↔
      ¬ ∃ q ∈ comp, q ∈ cells := by
  rw [List.isEmpty_iff, List.filter_eq_nil_iff]
  constructor
  · rintro h ⟨q, hq, hqc⟩
    exact absurd (by simpa using hqc) (h q hq)
  · intro h q hq
    simp only [decide_eq_true_eq]
    intro hqc
    exact h ⟨q, hq, hqc⟩

theorem consistGo_iff (cells : List Coord) (length : Nat) (horizontal : Bool)
    (cls : List Cluster) (n : Nat) (hn : n ≤ 1) :
    consistentGo cells length horizontal cls n = true ↔
      ((∀ cl ∈ cls, (∃ q ∈ cl.1, q ∈ cells) →
          (cl.1.length ≤ length ∧ (∀ q ∈ cl.1, q ∈ cells) ∧
           (cl.2 = some Orient.h → horizontal = true) ∧
           (cl.2 = some Orient.v → horizontal = false))) ∧
        n + cls.countP (fun cl => decide (∃ q ∈ cl.1, q ∈ cells)) ≤ 1) := by
  induction cls generalizing n with
  | nil =>
    constructor
    · intro _
      refine ⟨fun cl hcl => absurd hcl (List.not_mem_nil cl), ?_⟩
      rw [List.countP_nil]
      omega
    · intro _
      rfl
  | cons cl cls ih =>
    rw [consistentGo, List.countP_cons]
    by_cases hinter : ∃ q ∈ cl.1, q ∈ cells
    · rw [if_neg (by
        intro hx
        exact absurd hinter (filter_isEmpty_iff_no_inter.mp hx))]
      have hcnt : (decide (∃ q ∈ cl.1, q ∈ cells)) = true := by simpa using hinter
      rw [hcnt, if_pos rfl]
      by_cases hlen : length < cl.1.length
      · rw [if_pos hlen]
        constructor
        · intro hfalse
          exact absurd hfalse (by decide)
        · rintro ⟨hall, _⟩
          exfalso
          have := (hall cl (List.mem_cons_self cl cls) hinter).1
          omega
      · rw [if_neg hlen]
        by_cases hsub : cl.1.all (fun q => decide (q ∈ cells))
        · rw [if_neg (by simpa using hsub)]
          have hsub2 : ∀ q ∈ cl.1, q ∈ cells := by
            intro q hq
            simpa using List.all_eq_true.mp hsub q hq
          by_cases hho : cl.2 = some Orient.h ∧ horizontal = false
          · rw [if_pos hho]
            constructor
            · intro hfalse
              exact absurd hfalse (by decide)
            · rintro ⟨hall, _⟩
              exfalso
              have := (hall cl (List.mem_cons_self cl cls) hinter).2.2.1 hho.1
              rw [this] at hho
              exact absurd hho.2 (by decide)
          · rw [if_neg hho]
            by_cases hvo : cl.2 = some Orient.v ∧ horizontal = true
            · rw [if_pos hvo]
              constructor
              · intro hfalse
                exact absurd hfalse (by decide)
              · rintro ⟨hall, _⟩
                exfalso
                have := (hall cl (List.mem_cons_self cl cls) hinter).2.2.2 hvo.1
                rw [this] at hvo
                exact absurd hvo.2 (by decide)
            · rw [if_neg hvo]
              by_cases hn1 : 1 < n + 1
              · rw [if_pos hn1]
                constructor
                · intro hfalse
                  exact absurd hfalse (by decide)
                · rintro ⟨_, hcount⟩
                  exfalso
                  omega
              · rw [if_neg hn1]
                have hn0 : n = 0 := by omega
                subst hn0
                rw [ih 1 (le_refl 1)]
                have hclcond : cl.1.length ≤ length ∧ (∀ q ∈ cl.1, q ∈ cells) ∧
                    (cl.2 = some Orient.h → horizontal = true) ∧
                    (cl.2 = some Orient.v → horizontal = false) := by
                  refine ⟨by omega, hsub2, ?_, ?_⟩
                  · intro hh
                    cases hb : horizontal with
                    | true => rfl
                    | false => exact absurd ⟨hh, hb⟩ hho
                  · intro hv
                    cases hb : horizontal with
                    | true => exact absurd ⟨hv, hb⟩ hvo
                    | false => rfl
                constructor
                · rintro ⟨hall, hcount⟩
                  refine ⟨?_, by omega⟩
                  intro cl2 hcl2
                  rcases List.mem_cons.mp hcl2 with rfl | hcl2
                  · intro _
                    exact hclcond
                  · exact hall cl2 hcl2
                · rintro ⟨hall, hcount⟩
                  refine ⟨?_, by omega⟩
                  intro cl2 hcl2
                  exact hall cl2 (List.mem_cons_of_mem cl hcl2)
        · rw [if_pos (by simpa using hsub)]
          constructor
          · intro hfalse
            exact absurd hfalse (by decide)
          · rintro ⟨hall, _⟩
            exfalso
            have := (hall cl (List.mem_cons_self cl cls) hinter).2.1
            exact absurd (by
              rw [List.all_eq_true]
              intro q hq
              simpa using this q hq) hsub
    · rw [if_pos (filter_isEmpty_iff_no_inter.mpr hinter)]
      have hcnt : (decide (∃ q ∈ cl.1, q ∈ cells)) = false := by simpa using hinter
      rw [hcnt, if_neg (by decide)]
      rw [ih n hn]
      constructor
      · rintro ⟨hall, hcount⟩
        refine ⟨?_, by omega⟩
        intro cl2 hcl2
        rcases List.mem_cons.mp hcl2 with rfl | hcl2
        · intro hx
          exact absurd hx hinter
        · exact hall cl2 hcl2
      · rintro ⟨hall, hcount⟩
        exact ⟨fun cl2 hcl2 => hall cl2 (List.mem_cons_of_mem cl hcl2), by omega⟩

theorem valid_placement_iff {ai : BattleshipAI} {knowledge : Int → Int → Int}
    {r c : Int} {length : Nat} {horizontal : Bool}
    (hfit : ∀ p ∈ placement_cells r c length horizontal, cellInRange ai.size p.1 p.2) :
    ai.valid_placement_on_knowledge knowledge r c length horizontal = true ↔
      ∀ p ∈ placement_cells r c length horizontal, knowledge p.1 p.2 ≠ MISS := by
  unfold BattleshipAI.valid_placement_on_knowledge
  rw [List.all_eq_true]
  constructor
  · intro h p hp
    rcases List.mem_map.mp hp with ⟨i, hi, rfl⟩
    have := h i hi
    simp only [Bool.and_eq_true, decide_eq_true_eq] at this
    exact this.2
  · intro h i hi
    have hp : (r + (if horizontal then 0 else (i : Int)),
        c + (if horizontal then (i : Int) else 0)) ∈
        placement_cells r c length horizontal :=
      List.mem_map.mpr ⟨i, hi, rfl⟩
    simp only [Bool.and_eq_true, decide_eq_true_eq]
    exact ⟨hfit _ hp, h _ hp⟩

/-- C1: a placement whose cells all fit on the grid (exactly what the
heatmap loop ranges guarantee) passes
`_valid_placement_on_knowledge && _placement_consistent_with_clusters` —
i.e. contributes +1 to each covered cell of the base heat, which counts
placements by this very conjunction — iff (i) no covered cell is MISS,
(ii) every intersected hit-cluster is no larger than the ship and fully
covered, (iii) the orientation matches every intersected cluster's known
orientation, and (iv) at most one cluster is intersected. -/
theorem placement_counted_iff (ai : BattleshipAI) (knowledge : Int → Int → Int)
    (r c : Int) (length : Nat) (horizontal : Bool)
    (hfit : ∀ p ∈ placement_cells r c length horizontal, cellInRange ai.size p.1 p.2) :
    (ai.valid_placement_on_knowledge knowledge r c length horizontal &&
      placement_consistent_with_clusters (placement_cells r c length horizontal)
        (ai.hit_clusters knowledge) length horizontal) = true ↔
      ((∀ p ∈ placement_cells r c length horizontal, knowledge p.1 p.2 ≠ MISS) ∧
       (∀ cl ∈ ai.hit_clusters knowledge,
          (∃ q ∈ cl.1, q ∈ placement_cells r c length horizontal) →
            (cl.1.length ≤ length ∧
             (∀ q ∈ cl.1, q ∈ placement_cells r c length horizontal) ∧
             (cl.2 = some Orient.h → horizontal = true) ∧
             (cl.2 = some Orient.v → horizontal = false))) ∧
       (ai.hit_clusters knowledge).countP
          (fun cl => decide (∃ q ∈ cl.1, q ∈ placement_cells r c length horizontal)) ≤ 1) := by
  rw [Bool.and_eq_true, valid_placement_iff hfit]
  unfold placement_consistent_with_clusters
  rw [consistGo_iff _ _ _ _ 0 (by omega)]
  constructor
  · rintro ⟨h1, h2, h3⟩
    exact ⟨h1, h2, by omega⟩
  · rintro ⟨h1, h2, h3⟩
    exact ⟨h1, h2, by omega⟩

set_option maxRecDepth 100000 in
/-- Witness for C1: on the single-HIT grid, the horizontal length-2
placement at (4,4) covers the cluster and is counted. -/
theorem placement_counted_iff_witness :
    ((BattleshipAI.mk 10 STANDARD_SHIPS).valid_placement_on_knowledge kSingleHit 4 4 2 true &&
      placement_consistent_with_clusters (placement_cells 4 4 2 true)
        ((BattleshipAI.mk 10 STANDARD_SHIPS).hit_clusters kSingleHit) 2 true) = true :=
  (placement_counted_iff (BattleshipAI.mk 10 STANDARD_SHIPS) kSingleHit 4 4 2 true
    (by decide)).mpr (by decide)

/-! ## Parity pruning (C3) -/

theorem resolveShips_some_of_ne_nil (ai : BattleshipAI) {l : List Nat} (h : l ≠ []) :
    resolveShips ai (some l) = l := by
  show (if l.isEmpty then ai.remaining_ships else l) = l
  rw [if_neg (by simpa [List.isEmpty_iff] using h)]

theorem anyHit_false {ai : BattleshipAI} {knowledge : Int → Int → Int}
    (h : ∀ p : Coord, cellInRange ai.size p.1 p.2 → knowledge p.1 p.2 ≠ HIT) :
    ai.anyHit knowledge = false := by
  unfold BattleshipAI.anyHit
  rw [List.any_eq_false]
  intro p hp
  simpa using h p (mem_allCoords.mp hp)

theorem foldl_min_ge {xs : List Nat} {a b : Nat} (ha : b ≤ a)
    (hxs : ∀ L ∈ xs, b ≤ L) : b ≤ xs.foldl Nat.min a := by
  induction xs generalizing a with
  | nil => exact ha
  | cons x xs ih =>
    rw [List.foldl_cons]
    exact ih (le_min ha (hxs x (List.mem_cons_self x xs)))
      (fun L hL => hxs L (List.mem_cons_of_mem x hL))

theorem minLen_ge {ships : List Nat} {b : Nat} (hne : ships ≠ [])
    (h : ∀ L ∈ ships, b ≤ L) : b ≤ minLen ships := by
  cases ships with
  | nil => exact absurd rfl hne
  | cons x xs =>
    exact foldl_min_ge (h x (List.mem_cons_self x xs))
      (fun L hL => h L (List.mem_cons_of_mem x hL))

theorem heatmap_parity_cases {ai : BattleshipAI} {knowledge : Int → Int → Int}
    {ships : List Nat} (hne : ships ≠ [])
    (hnohit : ∀ p : Coord, cellInRange ai.size p.1 p.2 → knowledge p.1 p.2 ≠ HIT)
    (hmin : ∀ L ∈ ships, 2 ≤ L) (r c : Int) :
    ai.heatmap knowledge (some ships) r c =
      (if (r + c) % 2 = 1 then
        ai.boostedHeat knowledge ships (ai.hit_clusters knowledge) r c / 4
      else ai.boostedHeat knowledge ships (ai.hit_clusters knowledge) r c) := by
  have hdp : (!ai.anyHit knowledge && !ships.isEmpty && decide (2 ≤ minLen ships)) = true := by
    rw [anyHit_false hnohit]
    simp only [Bool.not_false, Bool.true_and, Bool.and_eq_true, Bool.not_eq_true',
      decide_eq_true_eq]
    exact ⟨by simpa [List.isEmpty_iff] using hne, minLen_ge hne hmin⟩
  show (if (!ai.anyHit knowledge && !(resolveShips ai (some ships)).isEmpty &&
        decide (2 ≤ minLen (resolveShips ai (some ships)))) = true ∧ (r + c) % 2 = 1 then
      ai.boostedHeat knowledge (resolveShips ai (some ships)) (ai.hit_clusters knowledge) r c / 4
    else ai.boostedHeat knowledge (resolveShips ai (some ships)) (ai.hit_clusters knowledge) r c)
    = _
  rw [resolveShips_some_of_ne_nil ai hne, hdp]
  by_cases hpar : (r + c) % 2 = 1
  · rw [if_pos ⟨rfl, hpar⟩, if_pos hpar]
  · rw [if_neg (fun hx => hpar hx.2), if_neg hpar]

/-- The standard AI instance of the end-to-end scenarios: a 10×10 grid
with the standard fleet. -/
def aiStd : BattleshipAI := BattleshipAI.mk 10 STANDARD_SHIPS

/-- An all-Unknown knowledge grid. -/
def kAllUnknown : Int → Int → Int := fun _ _ => UNKNOWN

/-! ### Counting bounds for the all-Unknown heatmap

The scenario-A argument: on the all-Unknown 10×10 grid the boost is zero
and every cell's base heat is at most `2 * sum(ships) = 34`, so every
odd-parity cell's pruned heat is at most `34 / 4 = 8`; eight concrete
even-parity cells have heat at least `10`, so by pigeonhole the top-8
list consists of even-parity cells only. -/

theorem intRange_nodup (n : Nat) : (intRange n).Nodup := by
  unfold intRange
  exact List.Nodup.map Nat.cast_injective (List.nodup_range n)

theorem countP_single_val {l : List Int} (h : l.Nodup) (v : Int) :
    l.countP (fun x => decide (x = v)) ≤ 1 := by
  induction l with
  | nil => simp
  | cons x xs ih =>
    rw [List.countP_cons]
    rcases List.nodup_cons.mp h with ⟨hx, hxs⟩
    by_cases hv : x = v
    · subst hv
      have hz : xs.countP (fun y => decide (y = x)) = 0 := by
        rw [List.countP_eq_zero]
        intro a ha
        simp only [decide_eq_true_eq]
        intro heq
        exact hx (heq ▸ ha)
      rw [hz, if_pos (by simp)]
    · rw [if_neg (by simpa using hv)]
      have := ih hxs
      omega

theorem countP_le_add_of_imp {l : List Int} {p q r : Int → Bool}
    (h : ∀ x ∈ l, p x = true → q x = true ∨ r x = true) :
    l.countP p ≤ l.countP q + l.countP r := by
  induction l with
  | nil => simp
  | cons x xs ih =>
    rw [List.countP_cons, List.countP_cons, List.countP_cons]
    have ihx := ih (fun a ha hp => h a (List.mem_cons_of_mem x ha) hp)
    by_cases hp : p x = true
    · rcases h x (List.mem_cons_self x xs) hp with hq | hr
      · rw [if_pos hp, if_pos hq]
        omega
      · rw [if_pos hp, if_pos hr]
        omega
    · rw [if_neg hp]
      omega

/-- A duplicate-free list of integers has at most `L` members in a window
of `L` consecutive values. -/
theorem count_in_window (L : Nat) : ∀ (lo : Int) (l : List Int), l.Nodup →
    l.countP (fun x => decide (lo ≤ x ∧ x < lo + (L : Int))) ≤ L := by
  induction L with
  | zero =>
    intro lo l h
    rw [Nat.le_zero, List.countP_eq_zero]
    intro a ha
    simp only [decide_eq_true_eq, not_and]
    intro h1
    omega
  | succ L ih =>
    intro lo l h
    calc l.countP (fun x => decide (lo ≤ x ∧ x < lo + ((L + 1 : Nat) : Int)))
        ≤ l.countP (fun x => decide (lo ≤ x ∧ x < lo + (L : Int))) +
          l.countP (fun x => decide (x = lo + (L : Int))) :=
          countP_le_add_of_imp (fun x _ hx => by
            simp only [decide_eq_true_eq] at hx ⊢
            omega)
      _ ≤ L + 1 := by
          have h1 := ih lo l h
          have h2 := countP_single_val h (lo + (L : Int))
          omega

theorem mem_placement_cells_horiz {r c r0 c0 : Int} {L : Nat}
    (h : (r, c) ∈ placement_cells r0 c0 L true) :
    r = r0 ∧ c0 ≤ c ∧ c < c0 + (L : Int) := by
  unfold placement_cells at h
  rcases List.mem_map.mp h with ⟨i, hi, heq⟩
  have hi' := List.mem_range.mp hi
  have h1 := congrArg Prod.fst heq
  have h2 := congrArg Prod.snd heq
  simp only [if_true] at h1 h2
  refine ⟨?_, ?_, ?_⟩ <;> omega

theorem mem_placement_cells_vert {r c r0 c0 : Int} {L : Nat}
    (h : (r, c) ∈ placement_cells r0 c0 L false) :
    c = c0 ∧ r0 ≤ r ∧ r < r0 + (L : Int) := by
  unfold placement_cells at h
  rcases List.mem_map.mp h with ⟨i, hi, heq⟩
  have hi' := List.mem_range.mp hi
  have h1 := congrArg Prod.fst heq
  have h2 := congrArg Prod.snd heq
  simp only [Bool.false_eq_true, if_false] at h1 h2
  refine ⟨?_, ?_, ?_⟩ <;> omega

/-- Folded form of the bound `f x ≤ B` on a marked sublist: the mapped sum
is at most `B` times the marked count. -/
theorem sum_le_mul_countP {l : List Int} {f : Int → Nat} {p : Int → Bool} {B : Nat}
    (h : ∀ x ∈ l, f x ≤ if p x then B else 0) :
    (l.map f).sum ≤ B * l.countP p := by
  induction l with
  | nil => simp
  | cons x xs ih =>
    rw [List.map_cons, List.sum_cons, List.countP_cons]
    have hx := h x (List.mem_cons_self x xs)
    have ihx := ih (fun a ha => h a (List.mem_cons_of_mem x ha))
    by_cases hp : p x = true
    · rw [if_pos hp] at hx ⊢
      rw [Nat.mul_add, Nat.mul_one]
      omega
    · rw [if_neg hp] at hx ⊢
      rw [Nat.add_zero]
      omega

theorem map_sum_le {l : List Nat} {g : Nat → Nat}
    (h : ∀ x ∈ l, g x ≤ 2 * x) : (l.map g).sum ≤ 2 * l.sum := by
  induction l with
  | nil => simp
  | cons x xs ih =>
    rw [List.map_cons, List.sum_cons, List.sum_cons, Nat.mul_add]
    have h1 := h x (List.mem_cons_self x xs)
    have h2 := ih (fun a ha => h a (List.mem_cons_of_mem x ha))
    omega

/-- A horizontal placement of length `L` covers `(r, c)` only from row
`r0 = r`, and at most `L` column origins do. -/
theorem horizRowCount_le (ai : BattleshipAI) (knowledge : Int → Int → Int)
    (clusters : List Cluster) (L : Nat) (r c r0 : Int) :
    (intRange (ai.size + 1 - L)).countP (fun c0 =>
        ai.valid_placement_on_knowledge knowledge r0 c0 L true &&
        placement_consistent_with_clusters (placement_cells r0 c0 L true)
          clusters L true &&
        decide ((r, c) ∈ placement_cells r0 c0 L true)) ≤
      if decide (r0 = r) = true then L else 0 := by
  by_cases hr : r0 = r
  · rw [if_pos (by simpa using hr)]
    calc (intRange (ai.size + 1 - L)).countP (fun c0 =>
          ai.valid_placement_on_knowledge knowledge r0 c0 L true &&
          placement_consistent_with_clusters (placement_cells r0 c0 L true)
            clusters L true &&
          decide ((r, c) ∈ placement_cells r0 c0 L true))
        ≤ (intRange (ai.size + 1 - L)).countP (fun c0 =>
            decide (c + 1 - (L : Int) ≤ c0 ∧ c0 < c + 1 - (L : Int) + (L : Int))) := by
          apply List.countP_mono_left
          intro c0 _ hc0
          simp only [Bool.and_eq_true, decide_eq_true_eq] at hc0
          rcases mem_placement_cells_horiz hc0.2 with ⟨_, hcl, hcu⟩
          simp only [decide_eq_true_eq]
          omega
      _ ≤ L := count_in_window L (c + 1 - (L : Int)) _ (intRange_nodup _)
  · rw [if_neg (by simpa using hr)]
    rw [Nat.le_zero, List.countP_eq_zero]
    intro c0 _
    simp only [Bool.and_eq_true, decide_eq_true_eq, not_and]
    intro _ hmem2
    exact hr (mem_placement_cells_horiz hmem2).1.symm

/-- A vertical placement of length `L` covers `(r, c)` only from a window
of `L` row origins, and from each at most one column origin does. -/
theorem vertRowCount_le (ai : BattleshipAI) (knowledge : Int → Int → Int)
    (clusters : List Cluster) (L : Nat) (r c r0 : Int) :
    (intRange ai.size).countP (fun c0 =>
        ai.valid_placement_on_knowledge knowledge r0 c0 L false &&
        placement_consistent_with_clusters (placement_cells r0 c0 L false)
          clusters L false &&
        decide ((r, c) ∈ placement_cells r0 c0 L false)) ≤
      if decide (r + 1 - (L : Int) ≤ r0 ∧ r0 < r + 1 - (L : Int) + (L : Int)) = true
      then 1 else 0 := by
  by_cases hr : r + 1 - (L : Int) ≤ r0 ∧ r0 < r + 1 - (L : Int) + (L : Int)
  · rw [if_pos (by simpa using hr)]
    calc (intRange ai.size).countP (fun c0 =>
          ai.valid_placement_on_knowledge knowledge r0 c0 L false &&
          placement_consistent_with_clusters (placement_cells r0 c0 L false)
            clusters L false &&
          decide ((r, c) ∈ placement_cells r0 c0 L false))
        ≤ (intRange ai.size).countP (fun c0 => decide (c0 = c)) := by
          apply List.countP_mono_left
          intro c0 _ hc0
          simp only [Bool.and_eq_true, decide_eq_true_eq] at hc0
          rcases mem_placement_cells_vert hc0.2 with ⟨hcc, _, _⟩
          simp only [decide_eq_true_eq]
          omega
      _ ≤ 1 := countP_single_val (intRange_nodup _) c
  · rw [if_neg (by simpa using hr)]
    rw [Nat.le_zero, List.countP_eq_zero]
    intro c0 _
    simp only [Bool.and_eq_true, decide_eq_true_eq, not_and]
    intro _ hmem2
    rcases mem_placement_cells_vert hmem2 with ⟨_, hrl, hru⟩
    exact hr (by omega)

theorem horizSum_le (ai : BattleshipAI) (knowledge : Int → Int → Int)
    (clusters : List Cluster) (L : Nat) (r c : Int) :
    ((intRange ai.size).map (fun r0 =>
      (intRange (ai.size + 1 - L)).countP (fun c0 =>
        ai.valid_placement_on_knowledge knowledge r0 c0 L true &&
        placement_consistent_with_clusters (placement_cells r0 c0 L true)
          clusters L true &&
        decide ((r, c) ∈ placement_cells r0 c0 L true)))).sum ≤ L := by
  calc ((intRange ai.size).map (fun r0 =>
        (intRange (ai.size + 1 - L)).countP (fun c0 =>
          ai.valid_placement_on_knowledge knowledge r0 c0 L true &&
          placement_consistent_with_clusters (placement_cells r0 c0 L true)
            clusters L true &&
          decide ((r, c) ∈ placement_cells r0 c0 L true)))).sum
      ≤ L * (intRange ai.size).countP (fun r0 => decide (r0 = r)) :=
        sum_le_mul_countP (fun r0 _ => horizRowCount_le ai knowledge clusters L r c r0)
    _ ≤ L * 1 := Nat.mul_le_mul (Nat.le_refl L) (countP_single_val (intRange_nodup _) r)
    _ = L := Nat.mul_one L

theorem vertSum_le (ai : BattleshipAI) (knowledge : Int → Int → Int)
    (clusters : List Cluster) (L : Nat) (r c : Int) :
    ((intRange (ai.size + 1 - L)).map (fun r0 =>
      (intRange ai.size).countP (fun c0 =>
        ai.valid_placement_on_knowledge knowledge r0 c0 L false &&
        placement_consistent_with_clusters (placement_cells r0 c0 L false)
          clusters L false &&
        decide ((r, c) ∈ placement_cells r0 c0 L false)))).sum ≤ L := by
  calc ((intRange (ai.size + 1 - L)).map (fun r0 =>
        (intRange ai.size).countP (fun c0 =>
          ai.valid_placement_on_knowledge knowledge r0 c0 L false &&
          placement_consistent_with_clusters (placement_cells r0 c0 L false)
            clusters L false &&
          decide ((r, c) ∈ placement_cells r0 c0 L false)))).sum
      ≤ 1 * (intRange (ai.size + 1 - L)).countP (fun r0 =>
          decide (r + 1 - (L : Int) ≤ r0 ∧ r0 < r + 1 - (L : Int) + (L : Int))) :=
        sum_le_mul_countP (fun r0 _ => vertRowCount_le ai knowledge clusters L r c r0)
    _ ≤ 1 * L := Nat.mul_le_mul (Nat.le_refl 1)
        (count_in_window L (r + 1 - (L : Int)) _ (intRange_nodup _))
    _ = L := Nat.one_mul L

/-- Every cell's base heat is at most twice the total remaining ship
length: each ship length contributes at most `L` horizontal and `L`
vertical placements covering the cell. -/
theorem baseHeat_le (ai : BattleshipAI) (knowledge : Int → Int → Int)
    (ships : List Nat) (clusters : List Cluster) (r c : Int) :
    ai.baseHeat knowledge ships clusters r c ≤ 2 * ships.sum := by
  unfold BattleshipAI.baseHeat
  apply map_sum_le
  intro L _
  exact Nat.le_trans
    (Nat.add_le_add (horizSum_le ai knowledge clusters L r c)
      (vertSum_le ai knowledge clusters L r c))
    (by omega)

/-- The adjacency boost vanishes on an all-Unknown grid: there is no HIT
neighbor anywhere. -/
theorem boostedHeat_all_unknown (ai : BattleshipAI) (ships : List Nat)
    (clusters : List Cluster) (r c : Int) :
    ai.boostedHeat kAllUnknown ships clusters r c =
      ai.baseHeat kAllUnknown ships clusters r c := by
  unfold BattleshipAI.boostedHeat
  have hcnt : dirs.countP (fun d =>
      decide (cellInRange ai.size (r + d.1) (c + d.2)) &&
      decide (kAllUnknown (r + d.1) (c + d.2) = HIT)) = 0 := by
    rw [List.countP_eq_zero]
    intro d _
    simp only [Bool.and_eq_true, decide_eq_true_eq, not_and]
    intro _
    exact (show UNKNOWN ≠ HIT by decide)
  rw [hcnt]
  by_cases hc : cellInRange ai.size r c ∧ kAllUnknown r c = UNKNOWN
  · rw [if_pos hc, Nat.mul_zero, Nat.add_zero]
  · rw [if_neg hc, Nat.add_zero]

/-- On the all-Unknown 10×10 grid with the standard fleet every
odd-parity cell's heat is at most `8 = (2 * 17) / 4`. -/
theorem heatA_odd_le (r c : Int) (hodd : (r + c) % 2 = 1) :
    aiStd.heatmap kAllUnknown (some STANDARD_SHIPS) r c ≤ 8 := by
  have hpar := @heatmap_parity_cases aiStd kAllUnknown STANDARD_SHIPS
    (by decide) (fun p _ => show UNKNOWN ≠ HIT by decide) (by decide) r c
  rw [hpar, if_pos hodd, boostedHeat_all_unknown]
  have hb := baseHeat_le aiStd kAllUnknown STANDARD_SHIPS
    (aiStd.hit_clusters kAllUnknown) r c
  have hs : 2 * STANDARD_SHIPS.sum = 34 := by decide
  omega

/-- Eight even-parity probe cells of scenario A, all of heat at least 10. -/
def evenProbes : List Coord :=
  [(0, 0), (0, 2), (0, 4), (0, 6), (2, 0), (4, 0), (6, 0), (2, 2)]

set_option maxRecDepth 1000000 in
set_option maxHeartbeats 4000000 in
theorem evenProbes_heat : ∀ p ∈ evenProbes,
    10 ≤ aiStd.heatmap kAllUnknown (some STANDARD_SHIPS) p.1 p.2 := by
  decide

theorem keyGe_fst {a b : Nat × Int × Int} (h : keyGe a b = true) : b.1 ≤ a.1 := by
  unfold keyGe at h
  simp only [Bool.or_eq_true, Bool.and_eq_true, decide_eq_true_eq] at h
  rcases h with h | ⟨h1, _⟩
  · omega
  · omega

theorem tcTop_key {ai : BattleshipAI} {heat : Int → Int → Nat}
    {knowledge : Int → Int → Int} {kk : Nat} {t : Nat × Int × Int}
    (h : t ∈ ai.tcTop heat knowledge kk) : t.1 = heat t.2.1 t.2.2 :=
  (mem_tcCells.mp (mem_tcTop_mem_tcCells h)).2.2

/-- A returned coordinate of `_top_candidates` always comes from a triple
of the sorted-and-truncated list, and that triple carries the
coordinate's own heat as score. -/
theorem mem_top_candidates_tuple {ai : BattleshipAI} {heat : Int → Int → Nat}
    {knowledge : Int → Int → Int} {kk : Nat} {p : Coord}
    (h : p ∈ ai.top_candidates heat knowledge kk) :
    (heat p.1 p.2, p.1, p.2) ∈ ai.tcTop heat knowledge kk := by
  unfold BattleshipAI.top_candidates at h
  by_cases hpos : ((ai.tcTop heat knowledge kk).filter (fun t => decide (0 < t.1))).isEmpty
  · rw [if_pos hpos] at h
    rcases List.mem_map.mp h with ⟨t, ht, hco⟩
    have hk := tcTop_key ht
    have ht2 : t = (heat p.1 p.2, p.1, p.2) := by
      rw [← hco]
      show t = (heat t.2.1 t.2.2, t.2.1, t.2.2)
      rcases t with ⟨s, tr, tc⟩
      show (s, tr, tc) = (heat tr tc, tr, tc)
      exact congrArg (fun x => (x, tr, tc)) (show s = heat tr tc from hk)
    rw [← ht2]
    exact ht
  · rw [if_neg hpos] at h
    rcases List.mem_map.mp h with ⟨t, ht, hco⟩
    have ht' := List.mem_of_mem_filter ht
    have hk := tcTop_key ht'
    have ht2 : t = (heat p.1 p.2, p.1, p.2) := by
      rw [← hco]
      show t = (heat t.2.1 t.2.2, t.2.1, t.2.2)
      rcases t with ⟨s, tr, tc⟩
      show (s, tr, tc) = (heat tr tc, tr, tc)
      exact congrArg (fun x => (x, tr, tc)) (show s = heat tr tc from hk)
    rw [← ht2]
    exact ht'

/-- Pigeonhole for scenario A: every cell of the top-8 list has even
parity, since the eight even probes (heat ≥ 10) fill the top 8 before any
odd-parity cell (heat ≤ 8) can enter. -/
theorem topA_even : ∀ p ∈ aiStd.top_candidates
    (aiStd.heatmap kAllUnknown (some STANDARD_SHIPS)) kAllUnknown 8,
    (p.1 + p.2) % 2 = 0 := by
  intro p hp
  by_contra hne0
  have hparity : (p.1 + p.2) % 2 = 1 := by omega
  have htuple := mem_top_candidates_tuple hp
  have hprobe : ∀ q ∈ evenProbes,
      (aiStd.heatmap kAllUnknown (some STANDARD_SHIPS) q.1 q.2, q.1, q.2) ∈
        aiStd.tcCells (aiStd.heatmap kAllUnknown (some STANDARD_SHIPS)) kAllUnknown := by
    intro q hq
    refine mem_tcCells.mpr ⟨?_, rfl, rfl⟩
    fin_cases hq <;> decide
  by_cases hdropc : ∃ q ∈ evenProbes,
      (aiStd.heatmap kAllUnknown (some STANDARD_SHIPS) q.1 q.2, q.1, q.2) ∈
        (sortDesc (aiStd.tcCells (aiStd.heatmap kAllUnknown (some STANDARD_SHIPS))
          kAllUnknown)).drop 8
  · rcases hdropc with ⟨q, hq, hdrop⟩
    have hdom := tcTop_dominates htuple hdrop
    have h1 : aiStd.heatmap kAllUnknown (some STANDARD_SHIPS) q.1 q.2 ≤
        aiStd.heatmap kAllUnknown (some STANDARD_SHIPS) p.1 p.2 := keyGe_fst hdom
    have h2 := heatA_odd_le p.1 p.2 hparity
    have h3 := evenProbes_heat q hq
    omega
  · push_neg at hdropc
    have hall : ∀ q ∈ evenProbes,
        (aiStd.heatmap kAllUnknown (some STANDARD_SHIPS) q.1 q.2, q.1, q.2) ∈
          aiStd.tcTop (aiStd.heatmap kAllUnknown (some STANDARD_SHIPS)) kAllUnknown 8 := by
      intro q hq
      have hmem2 : (aiStd.heatmap kAllUnknown (some STANDARD_SHIPS) q.1 q.2, q.1, q.2) ∈
          sortDesc (aiStd.tcCells (aiStd.heatmap kAllUnknown (some STANDARD_SHIPS))
            kAllUnknown) := (sortDesc_perm _).mem_iff.mpr (hprobe q hq)
      rw [← List.take_append_drop 8 (sortDesc (aiStd.tcCells
        (aiStd.heatmap kAllUnknown (some STANDARD_SHIPS)) kAllUnknown))] at hmem2
      rcases List.mem_append.mp hmem2 with hm | hm
      · exact hm
      · exact absurd hm (hdropc q hq)
    have hinj : Function.Injective (fun q : Coord =>
        (aiStd.heatmap kAllUnknown (some STANDARD_SHIPS) q.1 q.2, q.1, q.2)) := by
      intro a b hab
      have h3 : a.1 = b.1 := congrArg (fun t => t.2.1) hab
      have h4 : a.2 = b.2 := congrArg (fun t => t.2.2) hab
      exact Prod.ext_iff.mpr ⟨h3, h4⟩
    have hqe : ∀ x ∈ evenProbes, (x.1 + x.2) % 2 = 0 := by decide
    have hnodups : ((aiStd.heatmap kAllUnknown (some STANDARD_SHIPS) p.1 p.2, p.1, p.2) ::
        evenProbes.map (fun q =>
          (aiStd.heatmap kAllUnknown (some STANDARD_SHIPS) q.1 q.2, q.1, q.2))).Nodup := by
      refine List.nodup_cons.mpr ⟨?_, List.Nodup.map hinj (by decide)⟩
      intro hmemP
      rcases List.mem_map.mp hmemP with ⟨q, hq, heq⟩
      have h5 : q.1 = p.1 := congrArg (fun t => t.2.1) heq
      have h6 : q.2 = p.2 := congrArg (fun t => t.2.2) heq
      have h7 := hqe q hq
      omega
    have hsub : ((aiStd.heatmap kAllUnknown (some STANDARD_SHIPS) p.1 p.2, p.1, p.2) ::
        evenProbes.map (fun q =>
          (aiStd.heatmap kAllUnknown (some STANDARD_SHIPS) q.1 q.2, q.1, q.2))) ⊆
        aiStd.tcTop (aiStd.heatmap kAllUnknown (some STANDARD_SHIPS)) kAllUnknown 8 := by
      intro x hx
      rcases List.mem_cons.mp hx with heq | hx2
      · rw [heq]
        exact htuple
      · rcases List.mem_map.mp hx2 with ⟨q, hq, heq⟩
        rw [← heq]
        exact hall q hq
    have hlen := (List.subperm_of_subset hnodups hsub).length_le
    have hlen2 : (aiStd.tcTop (aiStd.heatmap kAllUnknown (some STANDARD_SHIPS))
        kAllUnknown 8).length ≤ 8 := by
      show ((sortDesc (aiStd.tcCells (aiStd.heatmap kAllUnknown (some STANDARD_SHIPS))
        kAllUnknown)).take 8).length ≤ 8
      rw [List.length_take]
      omega
    have hlen3 : ((aiStd.heatmap kAllUnknown (some STANDARD_SHIPS) p.1 p.2, p.1, p.2) ::
        evenProbes.map (fun q =>
          (aiStd.heatmap kAllUnknown (some STANDARD_SHIPS) q.1 q.2, q.1, q.2))).length = 9 := by
      rw [List.length_cons, List.length_map]
      rfl
    omega

set_option maxRecDepth 1000000 in
theorem targetCandidatesA_nil : aiStd.target_candidates kAllUnknown = [] := by
  decide

/-- C3: with no HIT anywhere and a non-empty ship list all of length ≥ 2,
`heatmap` quarters (integer-truncated) the heat of every odd-parity cell
and leaves even-parity cells at their unpruned value; and on the 10×10
all-Unknown grid with the standard fleet, `choose_shot` returns an
even-parity coordinate. -/
theorem heatmap_parity_spec :
    (∀ (ai : BattleshipAI) (knowledge : Int → Int → Int) (ships : List Nat),
      ships ≠ [] →
      (∀ p : Coord, cellInRange ai.size p.1 p.2 → knowledge p.1 p.2 ≠ HIT) →
      (∀ L ∈ ships, 2 ≤ L) →
      ∀ r c : Int,
        ((r + c) % 2 = 1 →
          ai.heatmap knowledge (some ships) r c =
            ai.boostedHeat knowledge ships (ai.hit_clusters knowledge) r c / 4) ∧
        ((r + c) % 2 ≠ 1 →
          ai.heatmap knowledge (some ships) r c =
            ai.boostedHeat knowledge ships (ai.hit_clusters knowledge) r c)) ∧
    ((aiStd.choose_shot kAllUnknown kAllUnknown none).1 +
      (aiStd.choose_shot kAllUnknown kAllUnknown none).2) % 2 = 0 := by
  constructor
  · intro ai knowledge ships hne hnohit hmin r c
    have h := heatmap_parity_cases hne hnohit hmin r c
    constructor
    · intro hodd
      rw [h, if_pos hodd]
    · intro heven
      rw [h, if_neg heven]
  · have hne : aiStd.candidatesOf kAllUnknown ≠ [] :=
      candidatesOf_ne_nil ⟨(0, 0), by decide, rfl⟩
    have hmem := @choose_shot_mem_candidates aiStd kAllUnknown kAllUnknown none hne
    have hcand : aiStd.candidatesOf kAllUnknown =
        aiStd.top_candidates (aiStd.heatmap kAllUnknown (some aiStd.remaining_ships))
          kAllUnknown 8 := by
      unfold BattleshipAI.candidatesOf
      rw [targetCandidatesA_nil,
        if_pos (show ([] : List Coord).isEmpty = true from rfl)]
    rw [hcand] at hmem
    exact topA_even _ hmem

/-- Witness for C3's general clause: on a 2×2 all-Unknown grid with one
ship of length 2, the odd cell (0,1) holds the quartered heat and the
even cell (0,0) the unpruned heat. -/
theorem heatmap_parity_spec_witness :
    (BattleshipAI.mk 2 [2]).heatmap kAllUnknown (some [2]) 0 1 =
      (BattleshipAI.mk 2 [2]).boostedHeat kAllUnknown [2]
        ((BattleshipAI.mk 2 [2]).hit_clusters kAllUnknown) 0 1 / 4 ∧
    (BattleshipAI.mk 2 [2]).heatmap kAllUnknown (some [2]) 0 0 =
      (BattleshipAI.mk 2 [2]).boostedHeat kAllUnknown [2]
        ((BattleshipAI.mk 2 [2]).hit_clusters kAllUnknown) 0 0 := by
  have h := (heatmap_parity_spec.1 (BattleshipAI.mk 2 [2]) kAllUnknown [2]
    (by decide) (fun p _ => by show UNKNOWN ≠ HIT; decide) (by decide))
  exact ⟨(h 0 1).1 (by decide), (h 0 0).2 (by decide)⟩

/-! ## Board well-formedness and the sunk-exactly-once property (C5) -/

def dummyShip : Ship := ⟨0, [], 0⟩

/-- The index of the first ship whose `cells` contain `(r, c)` — the ship
the update loop of `receive_shot` increments. -/
def shipIdxFor : List Ship → Int → Int → Option Nat
  | [], _, _ => none
  | s :: rest, r, c =>
    if (r, c) ∈ s.cells then some 0
    else
      match shipIdxFor rest r c with
      | none => none
      | some j => some (j + 1)

/-- Distinct ships occupy disjoint cells. -/
def ShipsDisjoint (ships : List Ship) : Prop :=
  List.Pairwise (fun s t => ∀ p ∈ s.cells, p ∉ t.cells) ships

/-- Board well-formedness, established by `place_ship` and preserved by
`receive_shot`: each ship has distinct in-list cells whose number is its
length, a hit count equal to the number of its cells the grid marks HIT,
and all its cells in state SHIP or HIT; distinct ships are disjoint. -/
def WF (b : Board) : Prop :=
  (∀ s ∈ b.ships, s.cells.Nodup ∧ s.cells.length = s.length ∧
    s.hits = s.cells.countP (fun p => decide (b.grid p.1 p.2 = HIT)) ∧
    ∀ p ∈ s.cells, b.grid p.1 p.2 = SHIP ∨ b.grid p.1 p.2 = HIT) ∧
  ShipsDisjoint b.ships

instance (b : Board) : Decidable (WF b) := by
  unfold WF ShipsDisjoint
  infer_instance

theorem countP_lt_of_mem_false {l : List Coord} {P : Coord → Bool} {x : Coord}
    (hx : x ∈ l) (hP : P x = false) : l.countP P < l.length := by
  induction l with
  | nil => cases hx
  | cons a l ih =>
    rw [List.countP_cons, List.length_cons]
    rcases List.mem_cons.mp hx with heq | hx
    · subst heq
      rw [hP, if_neg (by decide)]
      have := List.countP_le_length (p := P) (l := l)
      omega
    · have := ih hx
      split <;> omega

theorem countP_flip_one {l : List Coord} {P Q : Coord → Bool} {x : Coord}
    (hl : l.Nodup) (hx : x ∈ l) (hPQ : ∀ p, p ≠ x → P p = Q p)
    (hPx : P x = false) (hQx : Q x = true) :
    l.countP Q = l.countP P + 1 := by
  induction l with
  | nil => cases hx
  | cons a l ih =>
    rw [List.countP_cons, List.countP_cons]
    rcases List.mem_cons.mp hx with heq | hx
    · subst heq
      have hnotin : x ∉ l := (List.nodup_cons.mp hl).1
      have hc : l.countP Q = l.countP P := by
        apply List.countP_congr
        intro p hp
        have hpx : p ≠ x := fun h => hnotin (h ▸ hp)
        rw [hPQ p hpx]
      rw [hc, hPx, hQx, if_pos rfl, if_neg (by decide)]
    · have hax : a ≠ x := by
        rintro rfl
        exact (List.nodup_cons.mp hl).1 hx
      rw [ih (List.nodup_cons.mp hl).2 hx, hPQ a hax]
      omega

theorem shipIdxFor_cons_mem {s : Ship} {rest : List Ship} {r c : Int}
    (hs : (r, c) ∈ s.cells) : shipIdxFor (s :: rest) r c = some 0 := by
  rw [shipIdxFor, if_pos hs]

theorem shipIdxFor_cons_not_mem {s : Ship} {rest : List Ship} {r c : Int}
    (hs : (r, c) ∉ s.cells) :
    shipIdxFor (s :: rest) r c =
      (match shipIdxFor rest r c with
       | none => none
       | some j => some (j + 1)) := by
  rw [shipIdxFor, if_neg hs]

theorem shipIdxFor_none_iff {ships : List Ship} {r c : Int} :
    shipIdxFor ships r c = none ↔ ∀ s ∈ ships, (r, c) ∉ s.cells := by
  induction ships with
  | nil => simp [shipIdxFor]
  | cons s rest ih =>
    by_cases hs : (r, c) ∈ s.cells
    · rw [shipIdxFor_cons_mem hs]
      constructor
      · intro h
        cases h
      · intro h
        exact absurd hs (h s (List.mem_cons_self s rest))
    · rw [shipIdxFor_cons_not_mem hs]
      cases hi : shipIdxFor rest r c with
      | none =>
        constructor
        · intro _ t ht
          rcases List.mem_cons.mp ht with heq | ht
          · subst heq
            exact hs
          · exact (ih.mp hi) t ht
        · intro _
          rfl
      | some j =>
        constructor
        · intro h
          cases h
        · intro h
          have : shipIdxFor rest r c = none :=
            ih.mpr (fun t ht => h t (List.mem_cons_of_mem s ht))
          rw [this] at hi
          cases hi

theorem shipIdxFor_some {ships : List Ship} {r c : Int} {j : Nat}
    (h : shipIdxFor ships r c = some j) :
    j < ships.length ∧ (r, c) ∈ (ships.getD j dummyShip).cells ∧
      ∀ i, i < j → (r, c) ∉ (ships.getD i dummyShip).cells := by
  induction ships generalizing j with
  | nil => cases h
  | cons s rest ih =>
    by_cases hs : (r, c) ∈ s.cells
    · rw [shipIdxFor_cons_mem hs] at h
      cases h
      exact ⟨Nat.succ_pos _, hs, fun i hi => absurd hi (Nat.not_lt_zero i)⟩
    · rw [shipIdxFor_cons_not_mem hs] at h
      cases hrec : shipIdxFor rest r c with
      | none =>
        rw [hrec] at h
        cases h
      | some j0 =>
        rw [hrec] at h
        cases h
        have hrest := ih hrec
        refine ⟨by simp only [List.length_cons]; omega, ?_, ?_⟩
        · rw [List.getD_cons_succ]
          exact hrest.2.1
        · intro i hi
          cases i with
          | zero => simpa using hs
          | succ i =>
            rw [List.getD_cons_succ]
            exact hrest.2.2 i (by omega)

theorem updateShips_length (ships : List Ship) (r c : Int) :
    (updateShips ships r c).1.length = ships.length := by
  induction ships with
  | nil => rfl
  | cons s rest ih =>
    rw [updateShips]
    by_cases hs : (r, c) ∈ s.cells
    · rw [if_pos hs]
      rfl
    · rw [if_neg hs]
      show ((updateShips rest r c).1.length) + 1 = rest.length + 1
      omega

theorem updateShips_of_none {ships : List Ship} {r c : Int}
    (h : shipIdxFor ships r c = none) : updateShips ships r c = (ships, none) := by
  induction ships with
  | nil => rfl
  | cons s rest ih =>
    by_cases hs : (r, c) ∈ s.cells
    · rw [shipIdxFor_cons_mem hs] at h
      cases h
    · rw [shipIdxFor_cons_not_mem hs] at h
      rw [updateShips, if_neg hs]
      cases hrec : shipIdxFor rest r c with
      | none =>
        rw [ih hrec]
      | some j =>
        rw [hrec] at h
        cases h

theorem updateShips_getD (ships : List Ship) (r c : Int) (i : Nat) :
    (updateShips ships r c).1.getD i dummyShip =
      (if shipIdxFor ships r c = some i then
        { ships.getD i dummyShip with hits := (ships.getD i dummyShip).hits + 1 }
      else ships.getD i dummyShip) := by
  induction ships generalizing i with
  | nil =>
    show dummyShip = if (shipIdxFor [] r c) = some i then _ else ([] : List Ship).getD i dummyShip
    rw [shipIdxFor, if_neg (by intro h; cases h), List.getD_nil]
  | cons s rest ih =>
    rw [updateShips]
    by_cases hs : (r, c) ∈ s.cells
    · rw [if_pos hs, shipIdxFor_cons_mem hs]
      cases i with
      | zero =>
        show ({ s with hits := s.hits + 1 } :: rest).getD 0 dummyShip = _
        rw [if_pos rfl, List.getD_cons_zero, List.getD_cons_zero]
      | succ i =>
        show ({ s with hits := s.hits + 1 } :: rest).getD (i + 1) dummyShip = _
        rw [if_neg (by intro h; cases h), List.getD_cons_succ, List.getD_cons_succ]
    · rw [if_neg hs, shipIdxFor_cons_not_mem hs]
      cases hrec : shipIdxFor rest r c with
      | none =>
        cases i with
        | zero =>
          show (s :: (updateShips rest r c).1).getD 0 dummyShip = _
          rw [if_neg (by intro h; cases h), List.getD_cons_zero, List.getD_cons_zero]
        | succ i =>
          show (s :: (updateShips rest r c).1).getD (i + 1) dummyShip = _
          rw [if_neg (by intro h; cases h), List.getD_cons_succ, List.getD_cons_succ,
            ih i, if_neg (by rw [hrec]; intro h; cases h)]
      | some j0 =>
        cases i with
        | zero =>
          show (s :: (updateShips rest r c).1).getD 0 dummyShip = _
          rw [if_neg (by intro h; cases h), List.getD_cons_zero, List.getD_cons_zero]
        | succ i =>
          show (s :: (updateShips rest r c).1).getD (i + 1) dummyShip = _
          rw [List.getD_cons_succ, List.getD_cons_succ, ih i, hrec]
          by_cases hji : j0 = i
          · subst hji
            rw [if_pos rfl, if_pos rfl]
          · rw [if_neg (by intro h; cases h; exact hji rfl),
              if_neg (by intro h; cases h; exact hji rfl)]

theorem updateShips_sunk (ships : List Ship) (r c : Int) :
    (updateShips ships r c).2 =
      (match shipIdxFor ships r c with
       | none => none
       | some j =>
         if (ships.getD j dummyShip).length ≤ (ships.getD j dummyShip).hits + 1 then
           some (ships.getD j dummyShip).length
         else none) := by
  induction ships with
  | nil => rfl
  | cons s rest ih =>
    rw [updateShips]
    by_cases hs : (r, c) ∈ s.cells
    · rw [if_pos hs, shipIdxFor_cons_mem hs]
      show (if Ship.sunk { s with hits := s.hits + 1 } = true then
          some ({ s with hits := s.hits + 1 } : Ship).length else none) =
        (if ((s :: rest).getD 0 dummyShip).length ≤
            ((s :: rest).getD 0 dummyShip).hits + 1 then
          some ((s :: rest).getD 0 dummyShip).length else none)
      rw [List.getD_cons_zero]
      unfold Ship.sunk
      by_cases hsunk : s.length ≤ s.hits + 1
      · rw [if_pos (by simpa using hsunk), if_pos hsunk]
      · rw [if_neg (by simpa using hsunk), if_neg hsunk]
    · rw [if_neg hs, shipIdxFor_cons_not_mem hs]
      show (updateShips rest r c).2 = _
      rw [ih]
      cases hrec : shipIdxFor rest r c with
      | none => rfl
      | some j =>
        show (if (rest.getD j dummyShip).length ≤ (rest.getD j dummyShip).hits + 1 then
            some (rest.getD j dummyShip).length else none) =
          (if ((s :: rest).getD (j + 1) dummyShip).length ≤
              ((s :: rest).getD (j + 1) dummyShip).hits + 1 then
            some ((s :: rest).getD (j + 1) dummyShip).length else none)
        rw [List.getD_cons_succ]

theorem mem_updateShips {ships : List Ship} {r c : Int} {t : Ship}
    (h : t ∈ (updateShips ships r c).1) :
    ∃ t0 ∈ ships, t.cells = t0.cells ∧ t.length = t0.length := by
  induction ships with
  | nil => cases h
  | cons s rest ih =>
    rw [updateShips] at h
    by_cases hs : (r, c) ∈ s.cells
    · rw [if_pos hs] at h
      rcases List.mem_cons.mp h with heq | h
      · subst heq
        exact ⟨s, List.mem_cons_self s rest, rfl, rfl⟩
      · exact ⟨t, List.mem_cons_of_mem s h, rfl, rfl⟩
    · rw [if_neg hs] at h
      rcases List.mem_cons.mp h with heq | h
      · subst heq
        exact ⟨t, List.mem_cons_self t rest, rfl, rfl⟩
      · rcases ih h with ⟨t0, ht0, hcells, hlen⟩
        exact ⟨t0, List.mem_cons_of_mem s ht0, hcells, hlen⟩

theorem updateShips_pairwise {ships : List Ship} {r c : Int}
    (h : ShipsDisjoint ships) : ShipsDisjoint (updateShips ships r c).1 := by
  induction ships with
  | nil => exact h
  | cons s rest ih =>
    rw [updateShips]
    rcases List.pairwise_cons.mp h with ⟨hs, hrest⟩
    by_cases hmem : (r, c) ∈ s.cells
    · rw [if_pos hmem]
      exact List.pairwise_cons.mpr ⟨hs, hrest⟩
    · rw [if_neg hmem]
      refine List.pairwise_cons.mpr ⟨?_, ih hrest⟩
      intro t ht
      rcases mem_updateShips ht with ⟨t0, ht0, hcells, _⟩
      intro p hp
      rw [hcells]
      exact hs t0 ht0 p hp

theorem receive_shot_eq_noop {b : Board} {r c : Int}
    (h : ¬ b.in_bounds r c ∨ b.grid r c = HIT ∨ b.grid r c = MISS) :
    b.receive_shot r c = (b, false, none, b.all_ships_sunk) := by
  unfold Board.receive_shot
  by_cases hb : b.in_bounds r c
  · rw [if_neg (not_not_intro hb), if_pos (by tauto)]
  · rw [if_pos hb]

theorem receive_shot_eq_ship {b : Board} {r c : Int}
    (hb : b.in_bounds r c) (hs : b.grid r c = SHIP) :
    b.receive_shot r c = (shipHitBoard b r c, true, (updateShips b.ships r c).2,
      (shipHitBoard b r c).all_ships_sunk) := by
  unfold Board.receive_shot
  rw [if_neg (not_not_intro hb), if_neg (by rw [hs]; decide), if_pos hs]

theorem receive_shot_eq_miss {b : Board} {r c : Int}
    (hb : b.in_bounds r c) (h1 : b.grid r c ≠ HIT) (h2 : b.grid r c ≠ MISS)
    (h3 : b.grid r c ≠ SHIP) :
    b.receive_shot r c = (missBoard b r c, false, none,
      (missBoard b r c).all_ships_sunk) := by
  unfold Board.receive_shot
  rw [if_neg (not_not_intro hb), if_neg (by tauto), if_neg h3]

theorem receive_shot_fst_noop {b : Board} {r c : Int}
    (h : ¬ b.in_bounds r c ∨ b.grid r c = HIT ∨ b.grid r c = MISS) :
    (b.receive_shot r c).1 = b := by
  rw [receive_shot_eq_noop h]

theorem receive_shot_fst_ship {b : Board} {r c : Int}
    (hb : b.in_bounds r c) (hs : b.grid r c = SHIP) :
    (b.receive_shot r c).1 = shipHitBoard b r c := by
  rw [receive_shot_eq_ship hb hs]

theorem receive_shot_fst_miss {b : Board} {r c : Int}
    (hb : b.in_bounds r c) (h1 : b.grid r c ≠ HIT) (h2 : b.grid r c ≠ MISS)
    (h3 : b.grid r c ≠ SHIP) :
    (b.receive_shot r c).1 = missBoard b r c := by
  rw [receive_shot_eq_miss hb h1 h2 h3]

theorem receive_shot_sunk_noop {b : Board} {r c : Int}
    (h : ¬ b.in_bounds r c ∨ b.grid r c = HIT ∨ b.grid r c = MISS) :
    (b.receive_shot r c).2.2.1 = none := by
  rw [receive_shot_eq_noop h]

theorem receive_shot_sunk_ship {b : Board} {r c : Int}
    (hb : b.in_bounds r c) (hs : b.grid r c = SHIP) :
    (b.receive_shot r c).2.2.1 = (updateShips b.ships r c).2 := by
  rw [receive_shot_eq_ship hb hs]

theorem receive_shot_sunk_miss {b : Board} {r c : Int}
    (hb : b.in_bounds r c) (h1 : b.grid r c ≠ HIT) (h2 : b.grid r c ≠ MISS)
    (h3 : b.grid r c ≠ SHIP) :
    (b.receive_shot r c).2.2.1 = none := by
  rw [receive_shot_eq_miss hb h1 h2 h3]

theorem disjoint_getD {ships : List Ship} (hd : ShipsDisjoint ships)
    {i j : Nat} (hi : i < ships.length) (hj : j < ships.length) (hij : i ≠ j)
    {p : Coord} (hpi : p ∈ (ships.getD i dummyShip).cells) :
    p ∉ (ships.getD j dummyShip).cells := by
  rw [List.getD_eq_getElem _ _ hi] at hpi
  rw [List.getD_eq_getElem _ _ hj]
  rcases Nat.lt_or_ge i j with hlt | hge
  · exact (List.pairwise_iff_getElem.mp hd) i j hi hj hlt p hpi
  · have hlt : j < i := by omega
    intro hpj
    exact (List.pairwise_iff_getElem.mp hd) j i hj hi hlt p hpj hpi

theorem WF_shipHit {b : Board} {r c : Int} (hwf : WF b)
    (hs : b.grid r c = SHIP) : WF (shipHitBoard b r c) := by
  rcases hwf with ⟨hships, hdisj⟩
  constructor
  · intro s2 hs2
    rcases List.mem_iff_getElem.mp hs2 with ⟨j, hj, rfl⟩
    have hlen2 : (updateShips b.ships r c).1.length = b.ships.length :=
      updateShips_length b.ships r c
    have hjb : j < b.ships.length := by
      have : j < (shipHitBoard b r c).ships.length := hj
      have h2 : (shipHitBoard b r c).ships.length = (updateShips b.ships r c).1.length := rfl
      omega
    have hgetD : (shipHitBoard b r c).ships[j] =
        (updateShips b.ships r c).1.getD j dummyShip :=
      (List.getD_eq_getElem _ _ hj).symm
    have hsj : b.ships.getD j dummyShip ∈ b.ships := by
      rw [List.getD_eq_getElem _ _ hjb]
      exact List.getElem_mem hjb
    rcases hships _ hsj with ⟨hnd, hlen, hcnt, hstate⟩
    rw [hgetD, updateShips_getD]
    by_cases hidx : shipIdxFor b.ships r c = some j
    · rw [if_pos hidx]
      have hmemrc : (r, c) ∈ (b.ships.getD j dummyShip).cells :=
        (shipIdxFor_some hidx).2.1
      refine ⟨hnd, hlen, ?_, ?_⟩
      · show (b.ships.getD j dummyShip).hits + 1 = _
        have hflip : (b.ships.getD j dummyShip).cells.countP
            (fun p => decide ((shipHitBoard b r c).grid p.1 p.2 = HIT)) =
            (b.ships.getD j dummyShip).cells.countP
            (fun p => decide (b.grid p.1 p.2 = HIT)) + 1 := by
          refine countP_flip_one hnd hmemrc ?_ ?_ ?_
          · intro p hpx
            show decide (b.grid p.1 p.2 = HIT) =
              decide ((if p.1 = r ∧ p.2 = c then HIT else b.grid p.1 p.2) = HIT)
            rw [if_neg (by
              rintro ⟨h1, h2⟩
              refine hpx ?_
              rcases p with ⟨p1, p2⟩
              simp only at h1 h2
              rw [h1, h2])]
          · show decide (b.grid r c = HIT) = false
            rw [hs]
            decide
          · show decide ((if r = r ∧ c = c then HIT else b.grid r c) = HIT) = true
            rw [if_pos ⟨rfl, rfl⟩]
            decide
        rw [hflip, ← hcnt]
      · intro p hp
        show (if p.1 = r ∧ p.2 = c then HIT else b.grid p.1 p.2) = SHIP ∨
          (if p.1 = r ∧ p.2 = c then HIT else b.grid p.1 p.2) = HIT
        by_cases hprc : p.1 = r ∧ p.2 = c
        · rw [if_pos hprc]
          right
          rfl
        · rw [if_neg hprc]
          exact hstate p hp
    · rw [if_neg hidx]
      have hnotrc : (r, c) ∉ (b.ships.getD j dummyShip).cells := by
        intro hmem
        cases hidx2 : shipIdxFor b.ships r c with
        | none => exact (shipIdxFor_none_iff.mp hidx2) _ hsj hmem
        | some j0 =>
          have h0 := shipIdxFor_some hidx2
          have hj0 : j0 ≠ j := by
            intro h
            subst h
            exact hidx hidx2
          exact disjoint_getD hdisj h0.1 hjb hj0 h0.2.1 hmem
      refine ⟨hnd, hlen, ?_, ?_⟩
      · rw [hcnt]
        apply List.countP_congr
        intro p hp
        have hprc : ¬ (p.1 = r ∧ p.2 = c) := by
          rintro ⟨h1, h2⟩
          refine hnotrc ?_
          rcases p with ⟨p1, p2⟩
          simp only at h1 h2
          rw [← h1, ← h2]
          exact hp
        show (decide (b.grid p.1 p.2 = HIT) = true) ↔
          (decide ((if p.1 = r ∧ p.2 = c then HIT else b.grid p.1 p.2) = HIT) = true)
        rw [if_neg hprc]
      · intro p hp
        show (if p.1 = r ∧ p.2 = c then HIT else b.grid p.1 p.2) = SHIP ∨
          (if p.1 = r ∧ p.2 = c then HIT else b.grid p.1 p.2) = HIT
        by_cases hprc : p.1 = r ∧ p.2 = c
        · rw [if_pos hprc]
          right
          rfl
        · rw [if_neg hprc]
          exact hstate p hp
  · exact updateShips_pairwise hdisj

theorem WF_miss {b : Board} {r c : Int} (hwf : WF b)
    (h1 : b.grid r c ≠ HIT) (hs : b.grid r c ≠ SHIP) : WF (missBoard b r c) := by
  rcases hwf with ⟨hships, hdisj⟩
  refine ⟨?_, hdisj⟩
  intro s hsmem
  rcases hships s hsmem with ⟨hnd, hlen, hcnt, hstate⟩
  have hnotrc : (r, c) ∉ s.cells := by
    intro hmem
    rcases hstate _ hmem with h | h
    · exact hs h
    · exact h1 h
  have hprc : ∀ p ∈ s.cells, ¬ (p.1 = r ∧ p.2 = c) := by
    rintro p hp ⟨h1, h2⟩
    refine hnotrc ?_
    rcases p with ⟨p1, p2⟩
    simp only at h1 h2
    rw [← h1, ← h2]
    exact hp
  refine ⟨hnd, hlen, ?_, ?_⟩
  · rw [hcnt]
    apply List.countP_congr
    intro p hp
    show (decide (b.grid p.1 p.2 = HIT) = true) ↔
      (decide ((if p.1 = r ∧ p.2 = c then MISS else b.grid p.1 p.2) = HIT) = true)
    rw [if_neg (hprc p hp)]
  · intro p hp
    show (if p.1 = r ∧ p.2 = c then MISS else b.grid p.1 p.2) = SHIP ∨
      (if p.1 = r ∧ p.2 = c then MISS else b.grid p.1 p.2) = HIT
    rw [if_neg (hprc p hp)]
    exact hstate p hp

/-- `receive_shot` preserves well-formedness. -/
theorem WF_step {b : Board} (r c : Int) (hwf : WF b) : WF (b.receive_shot r c).1 := by
  by_cases hb : b.in_bounds r c
  · by_cases hres : b.grid r c = HIT ∨ b.grid r c = MISS
    · rw [receive_shot_fst_noop (Or.inr hres)]
      exact hwf
    · by_cases hs : b.grid r c = SHIP
      · rw [receive_shot_fst_ship hb hs]
        exact WF_shipHit hwf hs
      · rw [receive_shot_fst_miss hb (fun h => hres (Or.inl h))
          (fun h => hres (Or.inr h)) hs]
        exact WF_miss hwf (fun h => hres (Or.inl h)) hs
  · rw [receive_shot_fst_noop (Or.inl hb)]
    exact hwf

/-- One `receive_shot` never shrinks a ship's hit count and never changes
its length, cells or the number of ships. -/
theorem step_stable (b : Board) (r c : Int) :
    (b.receive_shot r c).1.ships.length = b.ships.length ∧
    ∀ j : Nat,
      ((b.receive_shot r c).1.ships.getD j dummyShip).length =
        (b.ships.getD j dummyShip).length ∧
      ((b.receive_shot r c).1.ships.getD j dummyShip).cells =
        (b.ships.getD j dummyShip).cells ∧
      (b.ships.getD j dummyShip).hits ≤
        ((b.receive_shot r c).1.ships.getD j dummyShip).hits := by
  by_cases hb : b.in_bounds r c
  · by_cases hres : b.grid r c = HIT ∨ b.grid r c = MISS
    · rw [receive_shot_fst_noop (Or.inr hres)]
      exact ⟨rfl, fun j => ⟨rfl, rfl, le_refl _⟩⟩
    · by_cases hs : b.grid r c = SHIP
      · rw [receive_shot_fst_ship hb hs]
        refine ⟨updateShips_length b.ships r c, ?_⟩
        intro j
        show ((updateShips b.ships r c).1.getD j dummyShip).length = _ ∧
          ((updateShips b.ships r c).1.getD j dummyShip).cells = _ ∧
          _ ≤ ((updateShips b.ships r c).1.getD j dummyShip).hits
        rw [updateShips_getD]
        by_cases hidx : shipIdxFor b.ships r c = some j
        · rw [if_pos hidx]
          exact ⟨rfl, rfl, Nat.le_succ _⟩
        · rw [if_neg hidx]
          exact ⟨rfl, rfl, le_refl _⟩
      · rw [receive_shot_fst_miss hb (fun h => hres (Or.inl h))
          (fun h => hres (Or.inr h)) hs]
        exact ⟨rfl, fun j => ⟨rfl, rfl, le_refl _⟩⟩
  · rw [receive_shot_fst_noop (Or.inl hb)]
    exact ⟨rfl, fun j => ⟨rfl, rfl, le_refl _⟩⟩

/-- Single-step characterization: under well-formedness, a shot reports
`sunkLength` for the ship at index `j` exactly when it raises that ship's
hit count from `length - 1` to `length`. -/
theorem report_iff_step {b : Board} {r c : Int} {j : Nat}
    (hwf : WF b) (hj : j < b.ships.length) :
    (b.in_bounds r c ∧ b.grid r c = SHIP ∧ shipIdxFor b.ships r c = some j ∧
      (b.receive_shot r c).2.2.1 = some ((b.ships.getD j dummyShip).length)) ↔
    (((b.receive_shot r c).1.ships.getD j dummyShip).hits =
        (b.ships.getD j dummyShip).length ∧
      (b.ships.getD j dummyShip).hits + 1 = (b.ships.getD j dummyShip).length) := by
  have hsj : b.ships.getD j dummyShip ∈ b.ships := by
    rw [List.getD_eq_getElem _ _ hj]
    exact List.getElem_mem hj
  rcases hwf.1 _ hsj with ⟨hnd, hlen, hcnt, hstate⟩
  constructor
  · rintro ⟨hb, hs, hidx, hrep⟩
    have hmemrc : (r, c) ∈ (b.ships.getD j dummyShip).cells :=
      (shipIdxFor_some hidx).2.1
    have hbound : (b.ships.getD j dummyShip).hits + 1 ≤
        (b.ships.getD j dummyShip).length := by
      rw [hcnt, ← hlen]
      have := countP_lt_of_mem_false (P := fun p => decide (b.grid p.1 p.2 = HIT))
        hmemrc (by show decide (b.grid r c = HIT) = false; rw [hs]; decide)
      omega
    rw [receive_shot_sunk_ship hb hs, updateShips_sunk b.ships r c, hidx] at hrep
    have hrep2 : (if (b.ships.getD j dummyShip).length ≤
          (b.ships.getD j dummyShip).hits + 1 then
        some (b.ships.getD j dummyShip).length else none) =
        some (b.ships.getD j dummyShip).length := hrep
    have hsunk : (b.ships.getD j dummyShip).length ≤
        (b.ships.getD j dummyShip).hits + 1 := by
      by_contra hcon
      rw [if_neg hcon] at hrep2
      cases hrep2
    rw [receive_shot_fst_ship hb hs]
    show ((updateShips b.ships r c).1.getD j dummyShip).hits = _ ∧ _
    rw [updateShips_getD, if_pos hidx]
    constructor
    · show (b.ships.getD j dummyShip).hits + 1 = _
      omega
    · omega
  · rintro ⟨hafter, hraise⟩
    have hchanged : ((b.receive_shot r c).1.ships.getD j dummyShip).hits ≠
        (b.ships.getD j dummyShip).hits := by
      rw [hafter]
      omega
    by_cases hb : b.in_bounds r c
    · by_cases hres : b.grid r c = HIT ∨ b.grid r c = MISS
      · rw [receive_shot_fst_noop (Or.inr hres)] at hchanged
        exact absurd rfl hchanged
      · by_cases hs : b.grid r c = SHIP
        · by_cases hidx : shipIdxFor b.ships r c = some j
          · refine ⟨hb, hs, hidx, ?_⟩
            rw [receive_shot_sunk_ship hb hs, updateShips_sunk b.ships r c, hidx]
            show (if (b.ships.getD j dummyShip).length ≤
                (b.ships.getD j dummyShip).hits + 1 then
              some (b.ships.getD j dummyShip).length else none) = _
            rw [if_pos (by omega)]
          · exfalso
            rw [receive_shot_fst_ship hb hs] at hchanged
            refine hchanged ?_
            show ((updateShips b.ships r c).1.getD j dummyShip).hits = _
            rw [updateShips_getD, if_neg hidx]
        · rw [receive_shot_fst_miss hb (fun h => hres (Or.inl h))
            (fun h => hres (Or.inr h)) hs] at hchanged
          exact absurd rfl hchanged
    · rw [receive_shot_fst_noop (Or.inl hb)] at hchanged
      exact absurd rfl hchanged

/-- Folding a sequence of shots through `receive_shot`. -/
def runShots : Board → List Coord → Board
  | b, [] => b
  | b, p :: ps => runShots (b.receive_shot p.1 p.2).1 ps

/-- The board state just before the `i`-th shot of a sequence. -/
def boardAt (b : Board) (shots : List Coord) (i : Nat) : Board :=
  runShots b (shots.take i)

/-- "This call reports `sunkLength` with respect to the ship at index
`j`": the shot resolves on a SHIP cell owned by ship `j` (the first ship
containing it — the one the update loop increments) and the call's
`sunk_length` result is that ship's length. -/
def reportsSunkFor (b : Board) (shot : Coord) (j : Nat) : Prop :=
  b.in_bounds shot.1 shot.2 ∧ b.grid shot.1 shot.2 = SHIP ∧
  shipIdxFor b.ships shot.1 shot.2 = some j ∧
  (b.receive_shot shot.1 shot.2).2.2.1 = some ((b.ships.getD j dummyShip).length)

theorem runShots_append (b : Board) (l1 l2 : List Coord) :
    runShots b (l1 ++ l2) = runShots (runShots b l1) l2 := by
  induction l1 generalizing b with
  | nil => rfl
  | cons p ps ih => exact ih _

theorem boardAt_succ {b : Board} {shots : List Coord} {i : Nat}
    (hi : i < shots.length) :
    boardAt b shots (i + 1) =
      ((boardAt b shots i).receive_shot (shots.getD i (0, 0)).1
        (shots.getD i (0, 0)).2).1 := by
  unfold boardAt
  rw [List.take_succ, List.getElem?_eq_getElem hi, runShots_append,
    List.getD_eq_getElem _ _ hi]
  rfl

theorem WF_runShots {b : Board} (l : List Coord) (hwf : WF b) :
    WF (runShots b l) := by
  induction l generalizing b with
  | nil => exact hwf
  | cons p ps ih => exact ih (WF_step p.1 p.2 hwf)

theorem runShots_stable (b : Board) (l : List Coord) :
    (runShots b l).ships.length = b.ships.length ∧
    ∀ j : Nat,
      ((runShots b l).ships.getD j dummyShip).length =
        (b.ships.getD j dummyShip).length ∧
      ((runShots b l).ships.getD j dummyShip).cells =
        (b.ships.getD j dummyShip).cells ∧
      (b.ships.getD j dummyShip).hits ≤
        ((runShots b l).ships.getD j dummyShip).hits := by
  induction l generalizing b with
  | nil => exact ⟨rfl, fun j => ⟨rfl, rfl, le_refl _⟩⟩
  | cons p ps ih =>
    have hstep := step_stable b p.1 p.2
    have hrec := ih ((b.receive_shot p.1 p.2).1)
    refine ⟨by rw [show runShots b (p :: ps) = runShots (b.receive_shot p.1 p.2).1 ps
      from rfl, hrec.1, hstep.1], ?_⟩
    intro j
    obtain ⟨l1, c1, m1⟩ := hstep.2 j
    obtain ⟨l2, c2, m2⟩ := hrec.2 j
    exact ⟨by rw [show runShots b (p :: ps) = runShots (b.receive_shot p.1 p.2).1 ps
        from rfl, l2, l1],
      by rw [show runShots b (p :: ps) = runShots (b.receive_shot p.1 p.2).1 ps
        from rfl, c2, c1],
      le_trans m1 (by rw [show runShots b (p :: ps) =
        runShots (b.receive_shot p.1 p.2).1 ps from rfl]; exact m2)⟩

theorem boardAt_ge {b : Board} {shots : List Coord} {i1 i2 : Nat} (h : i1 ≤ i2) :
    boardAt b shots i2 = runShots (boardAt b shots i1) ((shots.take i2).drop i1) := by
  unfold boardAt
  rw [← runShots_append]
  congr 1
  have h1 : shots.take i1 = (shots.take i2).take i1 := by
    rw [List.take_take, min_eq_left h]
  rw [h1, List.take_append_drop]

/-- C5: along any shot sequence from a well-formed board, the call at
position `i` reports `sunkLength` for the ship at index `j` exactly when
it raises that ship's hit count from `length - 1` to `length`, and at
most one call ever does so (so every other call reports nothing for that
ship). -/
theorem sunk_reported_exactly_once (b : Board) (shots : List Coord) (j : Nat)
    (hwf : WF b) (hj : j < b.ships.length) :
    (∀ i, i < shots.length →
      (reportsSunkFor (boardAt b shots i) (shots.getD i (0, 0)) j ↔
        (((boardAt b shots (i + 1)).ships.getD j dummyShip).hits =
            (b.ships.getD j dummyShip).length ∧
          ((boardAt b shots i).ships.getD j dummyShip).hits + 1 =
            (b.ships.getD j dummyShip).length))) ∧
    (∀ i1 i2, i1 < shots.length → i2 < shots.length →
      reportsSunkFor (boardAt b shots i1) (shots.getD i1 (0, 0)) j →
      reportsSunkFor (boardAt b shots i2) (shots.getD i2 (0, 0)) j → i1 = i2) := by
  have hiff : ∀ i, i < shots.length →
      (reportsSunkFor (boardAt b shots i) (shots.getD i (0, 0)) j ↔
        (((boardAt b shots (i + 1)).ships.getD j dummyShip).hits =
            (b.ships.getD j dummyShip).length ∧
          ((boardAt b shots i).ships.getD j dummyShip).hits + 1 =
            (b.ships.getD j dummyShip).length)) := by
    intro i hi
    have hwf_i : WF (boardAt b shots i) := WF_runShots _ hwf
    have hstab := runShots_stable b (shots.take i)
    have hjlen : j < (boardAt b shots i).ships.length := by
      have : (boardAt b shots i).ships.length = b.ships.length := hstab.1
      omega
    have hlenj : ((boardAt b shots i).ships.getD j dummyShip).length =
        (b.ships.getD j dummyShip).length := (hstab.2 j).1
    have hstep := report_iff_step (b := boardAt b shots i)
      (r := (shots.getD i (0, 0)).1) (c := (shots.getD i (0, 0)).2) hwf_i hjlen
    rw [boardAt_succ hi]
    unfold reportsSunkFor
    rw [← hlenj]
    exact hstep
  refine ⟨hiff, ?_⟩
  have haux : ∀ i1 i2, i1 < i2 → i1 < shots.length → i2 < shots.length →
      reportsSunkFor (boardAt b shots i1) (shots.getD i1 (0, 0)) j →
      reportsSunkFor (boardAt b shots i2) (shots.getD i2 (0, 0)) j → False := by
    intro i1 i2 hlt h1 h2 hr1 hr2
    have ha := (hiff i1 h1).mp hr1
    have hb := (hiff i2 h2).mp hr2
    have hmono : ((boardAt b shots (i1 + 1)).ships.getD j dummyShip).hits ≤
        ((boardAt b shots i2).ships.getD j dummyShip).hits := by
      rw [boardAt_ge (show i1 + 1 ≤ i2 by omega)]
      exact ((runShots_stable _ _).2 j).2.2
    omega
  intro i1 i2 h1 h2 hr1 hr2
  rcases Nat.lt_trichotomy i1 i2 with hlt | heq | hgt
  · exact absurd (haux i1 i2 hlt h1 h2 hr1 hr2) (fun h => h)
  · exact heq
  · exact absurd (haux i2 i1 hgt h2 h1 hr2 hr1) (fun h => h)

/-- A concrete well-formed one-cell board with a single length-1 ship. -/
def oneShipBoard : Board :=
  Board.mk 1 (fun r c => if r = 0 ∧ c = 0 then SHIP else EMPTY)
    [Ship.mk 1 [(0, 0)] 0] 1

/-- Witness for C5: on the one-ship board, the single shot at (0,0)
reports the sink, via the characterization applied at position 0. -/
theorem sunk_reported_exactly_once_witness :
    reportsSunkFor (boardAt oneShipBoard [(0, 0)] 0)
      (([(0, 0)] : List Coord).getD 0 (0, 0)) 0 :=
  ((sunk_reported_exactly_once oneShipBoard [(0, 0)] 0 (by decide) (by decide)).1 0
    (by decide)).mpr ⟨by decide, by decide⟩

end Battleship
